import Mathlib

/-!
# RIFT site: code comparison renderer and shareable filter state

A shallow embedding of the parts of `src/assets/js/main.js` that carry design
content, `CodeComparison` (catalogue filter, metrics, escaper, highlighter) and
`ShareableState` (hash codec), together with the data of `src/assets/js/data.js`
they read.

JavaScript strings are modelled as `String` / `List Char` (sequences of Unicode
scalar values); strings holding unpaired surrogates are outside the model. The
browser built-ins the code calls (`innerHTML` serialisation, regular expression
replacement, `URLSearchParams`, `select.value`) are modelled from their standards
and each definition says which algorithm it follows.
-/

set_option autoImplicit false

namespace Rift

/-! ## Characters -/

/-- The double quote character U+0022. -/
def dquote : Char := Char.ofNat 34

/-- The single quote character U+0027. -/
def squote : Char := Char.ofNat 39

/-- The grave accent U+0060. -/
def bquote : Char := Char.ofNat 96

/-- The reverse solidus U+005C. -/
def backslash : Char := Char.ofNat 92

/-- The no-break space U+00A0. -/
def nbsp : Char := Char.ofNat 160

/-- Regular expression class `\d` (no `u`, no `i` flag): the ASCII digits. -/
def isDigit (c : Char) : Bool := decide (48 ≤ c.toNat) && decide (c.toNat ≤ 57)

/-- Regular expression class `\w`: ASCII letters, ASCII digits and the underscore. -/
def isWordChar (c : Char) : Bool :=
  (decide (97 ≤ c.toNat) && decide (c.toNat ≤ 122)) ||
  (decide (65 ≤ c.toNat) && decide (c.toNat ≤ 90)) ||
  isDigit c || decide (c.toNat = 95)

/-- Line terminators, the characters the regular expression atom `.` refuses. -/
def isLineTerminator (c : Char) : Bool :=
  decide (c.toNat = 10) || decide (c.toNat = 13) ||
  decide (c.toNat = 8232) || decide (c.toNat = 8233)

/-- Whether an optional neighbour character is a word character; the ends of the
text count as non-word. -/
def isWordAt : Option Char → Bool
  | none => false
  | some c => isWordChar c

/-- Regular expression assertion `\b` between the character before the position and
the character after it. -/
def wordBoundary (prev next : Option Char) : Bool := isWordAt prev != isWordAt next

/-! ## `CodeComparison.escapeHtml` -/

/-- Replace every occurrence of the character `c` by the text `r`. -/
def replaceChar (c : Char) (r : List Char) (s : List Char) : List Char :=
  s.flatMap fun x => if x = c then r else [x]

/-- `escapeHtml(text)`: `div.textContent = text; return div.innerHTML`. The `div` gets
one text node holding `text` (none when `text` is empty) and `innerHTML` serialises
it by the HTML standard's "escaping a string" outside attribute mode: replace `&` by
`&amp;`, then U+00A0 by `&nbsp;`, then `<` by `&lt;` and `>` by `&gt;`. -/
def escapeHtmlChars (text : List Char) : List Char :=
  replaceChar '>' "&gt;".data
    (replaceChar '<' "&lt;".data
      (replaceChar nbsp "&nbsp;".data
        (replaceChar '&' "&amp;".data text)))

/-- `escapeHtml` on strings. -/
def escapeHtml (text : String) : String := ⟨escapeHtmlChars text.data⟩

/-- The escaper as the specification words it, on one character: each of the five
markup-sensitive characters is mapped to an entity, any other character to itself. -/
def entityOfFive (c : Char) : List Char :=
  if c = '&' then "&amp;".data
  else if c = '<' then "&lt;".data
  else if c = '>' then "&gt;".data
  else if c = dquote then "&quot;".data
  else if c = squote then "&#39;".data
  else [c]

/-- What the serialiser emits for one character: an entity for `&`, `<`, `>` and
U+00A0, the character itself otherwise. -/
def entityOf (c : Char) : List Char :=
  if c = '&' then "&amp;".data
  else if c = '<' then "&lt;".data
  else if c = '>' then "&gt;".data
  else if c = nbsp then "&nbsp;".data
  else [c]

/-- The texts that follow the `&` of an entity the serialiser emits. -/
def entityTails : List String := ["amp;", "lt;", "gt;", "nbsp;"]

/-! ## Global regular expression replacement -/

/-- `String.prototype.replace` with a global regular expression none of whose matches
is empty. `m prev rest` is the length of the match that starts at the current
position, given the character before it and the remaining text, or `none`. The scan
goes left to right; a match is replaced by `f` of the matched text and the scan
resumes right after it (`skip` counts the matched characters still to pass over);
an unmatched character is copied. -/
def replaceAll (m : Option Char → List Char → Option Nat) (f : List Char → List Char) :
    Option Char → Nat → List Char → List Char
  | _, _, [] => []
  | _, skip + 1, c :: rest => replaceAll m f (some c) skip rest
  | prev, 0, c :: rest =>
    match m prev (c :: rest) with
    | some (n + 1) => f ((c :: rest).take (n + 1)) ++ replaceAll m f (some c) n rest
    | _ => c :: replaceAll m f (some c) 0 rest

/-- The last character of a text, if any. -/
def lastChar : List Char → Option Char
  | [] => none
  | [c] => some c
  | _ :: rest => lastChar rest

/-- The pattern `\bK\b` at one position: a word boundary, the letters of `K` exactly
(the pattern has no `i` flag), and a word boundary. -/
def matchKeyword (K : List Char) (prev : Option Char) (rest : List Char) : Option Nat :=
  if wordBoundary prev rest.head? && K.isPrefixOf rest &&
      wordBoundary (lastChar K) (rest.drop K.length).head? then
    some K.length
  else none

/-- The body `(?:(?=(\\?))\2.)*?\1` after an opening quote `q`: the number of
characters up to and including the closing quote. The quantifier is lazy, so the
first `q` met when a unit starts closes the literal; otherwise one unit is consumed,
a backslash together with the character after it, or one character, where the
character consumed by `.` must not be a line terminator. -/
def stringBody (q : Char) : List Char → Option Nat
  | [] => none
  | c :: rest =>
    if c = q then some 1
    else if c = backslash then
      match rest with
      | [] => none
      | d :: rest2 =>
        if isLineTerminator d then none else (stringBody q rest2).map (· + 2)
    else if isLineTerminator c then none
    else (stringBody q rest).map (· + 1)

/-- The pattern `(['"`])(?:(?=(\\?))\2.)*?\1` at one position. -/
def matchString (_prev : Option Char) (rest : List Char) : Option Nat :=
  match rest with
  | [] => none
  | q :: body =>
    if q = squote || q = dquote || q = bquote then (stringBody q body).map (· + 1)
    else none

/-- The pattern `\b\d+(\.\d+)?\b` at one position. `\d+` takes the whole digit run;
the optional fraction is kept when a boundary follows it, and given up otherwise
(the boundary between the integer part and the dot then holds). -/
def matchNumber (prev : Option Char) (rest : List Char) : Option Nat :=
  if wordBoundary prev rest.head? then
    let ds := rest.takeWhile isDigit
    if ds.isEmpty then none
    else
      let after := rest.drop ds.length
      match after with
      | [] => some ds.length
      | c :: tail =>
        let fs := tail.takeWhile isDigit
        if c = '.' && !fs.isEmpty then
          if isWordAt (tail.drop fs.length).head? then some ds.length
          else some (ds.length + 1 + fs.length)
        else if isWordChar c then none
        else some ds.length
  else none

/-- The pattern `(#[^\n]*)` at one position. -/
def matchComment (_prev : Option Char) (rest : List Char) : Option Nat :=
  match rest with
  | c :: tail =>
    if c = '#' then some (1 + (tail.takeWhile fun d => d != '\n').length) else none
  | [] => none

/-- The pattern `(@|#)` at one position. -/
def matchDelimiter (_prev : Option Char) (rest : List Char) : Option Nat :=
  match rest with
  | c :: _ => if c = '@' || c = '#' then some 1 else none
  | [] => none

/-! ## `CodeComparison.highlightRift` and `highlightCode` -/

/-- The `keywords` array of `highlightRift`, in source order. -/
def keywords : List String :=
  ["let", "mut", "const", "conduit", "make", "if", "else", "while", "repeat",
   "check", "when", "stop", "next", "give", "yield", "build", "extend", "me",
   "parent", "static", "get", "set", "grab", "share", "as", "try", "catch",
   "finally", "fail", "async", "wait", "and", "or", "not", "in", "yes", "no", "none"]

/-- The `operators` array of `highlightRift`; no pass reads it. -/
def operators : List String :=
  ["@", "#", "~", "!", "=!", "-!", "~!", "??", "?.", "?~", "::", "..", "..."]

/-- An annotation `<span class="kind">text</span>`. -/
def span (kind : String) (text : List Char) : List Char :=
  "<span class=\"".data ++ kind.data ++ "\">".data ++ text ++ "</span>".data

/-- One iteration of `keywords.forEach`: replace every match of `\bkeyword\b`. -/
def replaceKeyword (highlighted : List Char) (keyword : String) : List Char :=
  replaceAll (matchKeyword keyword.data) (fun _ => span "keyword" keyword.data) none 0 highlighted

/-- The keyword pass: the whole `keywords.forEach` loop. -/
def highlightKeywords (highlighted : List Char) : List Char :=
  keywords.foldl replaceKeyword highlighted

/-- The string pass. -/
def highlightStrings (highlighted : List Char) : List Char :=
  replaceAll matchString (span "string") none 0 highlighted

/-- The number pass. -/
def highlightNumbers (highlighted : List Char) : List Char :=
  replaceAll matchNumber (span "number") none 0 highlighted

/-- The comment pass. -/
def highlightComments (highlighted : List Char) : List Char :=
  replaceAll matchComment (span "comment") none 0 highlighted

/-- The delimiter pass. -/
def highlightDelimiters (highlighted : List Char) : List Char :=
  replaceAll matchDelimiter (span "delimiter") none 0 highlighted

/-- `highlightRift(code)` on character lists: escape, then the five passes in source
order, each on the text the previous one left. -/
def highlightRiftChars (code : List Char) : List Char :=
  highlightDelimiters (highlightComments (highlightNumbers (highlightStrings
    (highlightKeywords (escapeHtmlChars code)))))

/-- `highlightRift(code)`. -/
def highlightRift (code : String) : String := ⟨highlightRiftChars code.data⟩

/-- `String.prototype.toLowerCase` on an ASCII character. -/
def lowerAscii (c : Char) : Char :=
  if 65 ≤ c.toNat ∧ c.toNat ≤ 90 then Char.ofNat (c.toNat + 32) else c

/-- `String.prototype.toLowerCase`. On a text of ASCII characters it lowers `A`..`Z`;
on any other text it is the Unicode default case conversion, whose table is not part
of the repository and is taken as the parameter `lowerUnicode`. -/
def toLowerCase (lowerUnicode : String → String) (s : String) : String :=
  if s.data.all (fun c => decide (c.toNat < 128)) then ⟨s.data.map lowerAscii⟩
  else lowerUnicode s

/-- `highlightCode(code, language)`. -/
def highlightCode (lowerUnicode : String → String) (code language : String) : String :=
  if toLowerCase lowerUnicode language = "rift" then highlightRift code
  else escapeHtml code

/-! ## Catalogue, metrics and `CodeComparison.render` -/

/-- One record of `window.comparisonData`. -/
structure Snippet where
  language : String
  task : String
  code : String
  lines : Nat
  chars : Nat
  deriving DecidableEq, Repr

/-- `code.split('\n')` for a one-character separator: the segments between the
occurrences of the separator, the empty text giving one empty segment. -/
def splitOn (sep : Char) : List Char → List (List Char)
  | [] => [[]]
  | c :: rest =>
    if c = sep then [] :: splitOn sep rest
    else
      match splitOn sep rest with
      | seg :: segs => (c :: seg) :: segs
      | [] => [[c]]

/-- The `length` of a JavaScript string: its number of UTF-16 code units, two for a
character outside the Basic Multilingual Plane. -/
def utf16Length (s : List Char) : Nat :=
  (s.map fun c => if c.toNat < 65536 then 1 else 2).sum

/-- What `createComparisonCard(data, index)` puts on a card: the index that sets the
animation delay, the language label, the two metrics and the markup of the code. -/
structure Card where
  index : Nat
  language : String
  lines : Nat
  chars : Nat
  codeHtml : String
  deriving DecidableEq, Repr

/-- `createComparisonCard(data, index)`. -/
def createComparisonCard (lowerUnicode : String → String) (data : Snippet) (index : Nat) :
    Card :=
  { index := index
    language := data.language
    lines := (splitOn '\n' data.code.data).length
    chars := utf16Length data.code.data
    codeHtml := highlightCode lowerUnicode data.code data.language }

/-- The value `render` reads from a filter: the element's value, `'all'` when the
element is absent. -/
def selectorValue : Option String → String
  | some v => v
  | none => "all"

/-- The `filteredData` of `render`: the catalogue, narrowed by language when the
language selector is not `'all'`, then by task when the task selector is not `'all'`. -/
def filteredData (data : List Snippet) (selectedLanguage selectedTask : String) :
    List Snippet :=
  let byLanguage :=
    if selectedLanguage ≠ "all" then data.filter fun item => item.language = selectedLanguage
    else data
  if selectedTask ≠ "all" then byLanguage.filter fun item => item.task = selectedTask
  else byLanguage

/-- `render()` once the container and the data exist: one card per filtered item, in
order, each with its index in the filtered sequence. -/
def render (lowerUnicode : String → String) (data : List Snippet)
    (languageFilter taskFilter : Option String) : List Card :=
  (filteredData data (selectorValue languageFilter) (selectorValue taskFilter)).enum.map
    fun p => createComparisonCard lowerUnicode p.2 p.1

/-- The predicate of the catalogue filter as the specification words it. -/
def selected (selectedLanguage selectedTask : String) (s : Snippet) : Bool :=
  (decide (selectedLanguage = "all") || decide (s.language = selectedLanguage)) &&
  (decide (selectedTask = "all") || decide (s.task = selectedTask))

/-! ## Bytes, UTF-8 and percent-encoding (used by `URLSearchParams` and `location.hash`) -/

/-- UTF-8 encoding of one character, as a list of byte values. -/
def utf8Bytes (c : Char) : List Nat :=
  let n := c.toNat
  if n < 128 then [n]
  else if n < 2048 then [192 + n / 64, 128 + n % 64]
  else if n < 65536 then [224 + n / 4096, 128 + n / 64 % 64, 128 + n % 64]
  else [240 + n / 262144, 128 + n / 4096 % 64, 128 + n / 64 % 64, 128 + n % 64]

/-- UTF-8 encoding of a text. -/
def utf8Encode (s : List Char) : List Nat := s.flatMap utf8Bytes

/-- State of the Encoding standard's UTF-8 decoder: the code point built so far, the
number of continuation bytes still expected, and the bounds of the next one. -/
structure Utf8State where
  codePoint : Nat
  remaining : Nat
  lower : Nat
  upper : Nat

/-- The decoder's initial state. -/
def Utf8State.initial : Utf8State := ⟨0, 0, 128, 191⟩

/-- The replacement character U+FFFD. -/
def replacementChar : Char := Char.ofNat 65533

/-- The decoder's step on a byte read when no continuation byte is expected. -/
def utf8Lead (b : Nat) : List Char × Utf8State :=
  if b < 128 then ([Char.ofNat b], Utf8State.initial)
  else if 194 ≤ b ∧ b ≤ 223 then ([], ⟨b % 32, 1, 128, 191⟩)
  else if 224 ≤ b ∧ b ≤ 239 then
    ([], ⟨b % 16, 2, if b = 224 then 160 else 128, if b = 237 then 159 else 191⟩)
  else if 240 ≤ b ∧ b ≤ 244 then
    ([], ⟨b % 8, 3, if b = 240 then 144 else 128, if b = 244 then 143 else 191⟩)
  else ([replacementChar], Utf8State.initial)

/-- "UTF-8 decode without BOM" of the Encoding standard: malformed input yields
U+FFFD and never fails; a byte that breaks a sequence is read again as a lead byte. -/
def utf8DecodeFrom : Utf8State → List Nat → List Char
  | st, [] => if st.remaining = 0 then [] else [replacementChar]
  | st, b :: bs =>
    if st.remaining = 0 then
      (utf8Lead b).1 ++ utf8DecodeFrom (utf8Lead b).2 bs
    else if st.lower ≤ b ∧ b ≤ st.upper then
      if st.remaining = 1 then
        Char.ofNat (st.codePoint * 64 + b % 64) :: utf8DecodeFrom Utf8State.initial bs
      else
        utf8DecodeFrom ⟨st.codePoint * 64 + b % 64, st.remaining - 1, 128, 191⟩ bs
    else
      replacementChar :: ((utf8Lead b).1 ++ utf8DecodeFrom (utf8Lead b).2 bs)

/-- UTF-8 decode without BOM, from the initial state. -/
def utf8Decode (bytes : List Nat) : List Char := utf8DecodeFrom Utf8State.initial bytes

/-- The upper-case hexadecimal digit of a value below 16. -/
def hexDigit (n : Nat) : Char := if n < 10 then Char.ofNat (48 + n) else Char.ofNat (55 + n)

/-- The value of a byte that is an ASCII hexadecimal digit. -/
def hexValue (b : Nat) : Option Nat :=
  if 48 ≤ b ∧ b ≤ 57 then some (b - 48)
  else if 65 ≤ b ∧ b ≤ 70 then some (b - 55)
  else if 97 ≤ b ∧ b ≤ 102 then some (b - 87)
  else none

/-- Percent-encode one byte: `%` and two upper-case hexadecimal digits. -/
def percentEncodeByte (b : Nat) : List Char := ['%', hexDigit (b / 16), hexDigit (b % 16)]

/-- Percent-decode of the URL standard on a byte sequence: `%` followed by two
hexadecimal digits becomes the byte they denote, anything else is kept, a `%` that is
not so followed included. `skip` counts the digits already consumed. -/
def percentDecodeFrom : Nat → List Nat → List Nat
  | _, [] => []
  | skip + 1, _ :: rest => percentDecodeFrom skip rest
  | 0, b :: rest =>
    if b = 37 then
      match rest with
      | h1 :: h2 :: _ =>
        match hexValue h1, hexValue h2 with
        | some x, some y => (16 * x + y) :: percentDecodeFrom 2 rest
        | _, _ => b :: percentDecodeFrom 0 rest
      | _ => b :: percentDecodeFrom 0 rest
    else b :: percentDecodeFrom 0 rest

/-- Percent-decode a byte sequence. -/
def percentDecode (bytes : List Nat) : List Nat := percentDecodeFrom 0 bytes

/-! ## `URLSearchParams` -/

/-- Drop a single leading occurrence of the character `ch`, if there is one. -/
def stripLeading (ch : Char) : List Char → List Char
  | [] => []
  | c :: rest => if c = ch then rest else c :: rest

/-- Whether a byte is left as it is by the `application/x-www-form-urlencoded`
serialiser: ASCII alphanumerics and `*`, `-`, `.`, `_`. -/
def urlencodedSafe (b : Nat) : Bool :=
  (decide (48 ≤ b) && decide (b ≤ 57)) || (decide (65 ≤ b) && decide (b ≤ 90)) ||
  (decide (97 ≤ b) && decide (b ≤ 122)) ||
  decide (b = 42) || decide (b = 45) || decide (b = 46) || decide (b = 95)

/-- The serialiser on one byte: a space becomes `+`, a safe byte itself, any other
byte its percent-encoding. -/
def urlencodeByte (b : Nat) : List Char :=
  if b = 32 then ['+']
  else if urlencodedSafe b then [Char.ofNat b]
  else percentEncodeByte b

/-- The serialiser on a name or a value: its UTF-8 bytes, each encoded. -/
def urlencode (s : String) : List Char := (utf8Encode s.data).flatMap urlencodeByte

/-- The text of one `name=value` pair. -/
def pairText (name value : String) : List Char := urlencode name ++ '=' :: urlencode value

/-- `URLSearchParams.prototype.toString`: the pairs, serialised and joined by `&`. -/
def URLSearchParams.toString (params : List (String × String)) : String :=
  ⟨List.intercalate ['&'] (params.map fun p => pairText p.1 p.2)⟩

/-- `URLSearchParams.prototype.set(name, value)`: the first pair named `name` takes the
value and the other pairs of that name are removed; without such a pair, a new pair
is appended. -/
def URLSearchParams.set (params : List (String × String)) (name value : String) :
    List (String × String) :=
  if params.any (fun p => p.1 = name) then
    match params.span (fun p => p.1 ≠ name) with
    | (before, _ :: others) => before ++ (name, value) :: others.filter (fun p => p.1 ≠ name)
    | (before, []) => before
  else params ++ [(name, value)]

/-- Split a byte sequence on a separator byte. -/
def splitBytes (sep : Nat) : List Nat → List (List Nat)
  | [] => [[]]
  | b :: rest =>
    if b = sep then [] :: splitBytes sep rest
    else
      match splitBytes sep rest with
      | seg :: segs => (b :: seg) :: segs
      | [] => [[b]]

/-- The name or value a byte sequence of the parser stands for: `+` becomes a space,
the bytes are percent-decoded and the result is UTF-8 decoded without BOM. -/
def urldecode (bytes : List Nat) : String :=
  ⟨utf8Decode (percentDecode (bytes.map fun b => if b = 43 then 32 else b))⟩

/-- The `application/x-www-form-urlencoded` parser on one sequence between `&`: an
empty sequence gives no pair; a sequence holding `=` is split at the first one; a
sequence without `=` is a name with the empty value. -/
def parsePair (bytes : List Nat) : Option (String × String) :=
  if bytes.isEmpty then none
  else
    match bytes.span (fun b => b ≠ 61) with
    | (name, _ :: value) => some (urldecode name, urldecode value)
    | (name, []) => some (urldecode name, "")

/-- `new URLSearchParams(init)` for a string: a single leading `?` is dropped and the
rest is parsed sequence by sequence. -/
def URLSearchParams.parse (init : String) : List (String × String) :=
  (splitBytes 38 (utf8Encode (stripLeading '?' init.data))).filterMap parsePair

/-! ## The page: elements, `location.hash`, and `ShareableState` -/

/-- What the codec reads of a page element: its `id`, its `tagName`, whether it has
the class `filter-select`, the values of its options (for a `SELECT`), and its
`value` (the empty text also standing for an element without a value). -/
structure Element where
  id : String
  tagName : String
  filterSelect : Bool
  options : List String
  value : String
  deriving DecidableEq, Repr

/-- Assigning `element.value = value` on a `SELECT`: the first option with that value
becomes the selected one; when no option has it, no option is selected and the value
reads as the empty text. -/
def Element.setValue (e : Element) (value : String) : Element :=
  { e with value := if value ∈ e.options then value else "" }

/-- The body of the `params.forEach` callback of `loadFromHash`, on the elements in
document order: `getElementById(key)` is the first element whose id is `key` (an
empty id names no element), and it is assigned the value when it is a `SELECT`. -/
def assignFirst (key value : String) : List Element → List Element
  | [] => []
  | e :: es =>
    if e.id = key then
      (if e.tagName = "SELECT" then e.setValue value else e) :: es
    else e :: assignFirst key value es

/-- What `loadFromHash` never changes of an element: everything but its value. -/
def Element.shape (e : Element) : String × String × Bool × List String :=
  (e.id, e.tagName, e.filterSelect, e.options)

/-- One call of the `params.forEach` callback. -/
def applyPair (page : List Element) (p : String × String) : List Element :=
  if p.1 = "" then page else assignFirst p.1 p.2 page

/-- `loadFromHash()`, where `hash` is `window.location.hash.substring(1)`, the
fragment of the page's address: nothing is done for an empty hash; otherwise the
pairs are applied in order. The result is the page after the call. -/
def loadFromHash (page : List Element) (hash : String) : List Element :=
  if hash = "" then page
  else (URLSearchParams.parse hash).foldl applyPair page

/-- Whether a character is in the fragment percent-encode set of the URL standard:
C0 controls, everything above U+007E, space, the double quote, `<`, `>` and the
grave accent. -/
def inFragmentEncodeSet (c : Char) : Bool :=
  decide (c.toNat ≤ 31) || decide (126 < c.toNat) || decide (c.toNat = 32) ||
  decide (c.toNat = 34) || decide (c.toNat = 60) || decide (c.toNat = 62) ||
  decide (c.toNat = 96)

/-- Assigning `window.location.hash = value`: a single leading `#` is dropped, ASCII
tab and newline are removed, and the rest is stored as the fragment with the
characters of the fragment percent-encode set percent-encoded. The result is what
`window.location.hash.substring(1)` reads afterwards. -/
def setLocationHash (value : String) : String :=
  let kept := (stripLeading '#' value.data).filter fun c => !(decide (c.toNat = 9) || decide (c.toNat = 10) ||
    decide (c.toNat = 13))
  ⟨kept.flatMap fun c =>
    if inFragmentEncodeSet c then (utf8Bytes c).flatMap percentEncodeByte else [c]⟩

/-- A character that an assignment to `window.location.hash` stores as it is: not
`#`, and outside the fragment percent-encode set (which holds tab and newline). -/
def hashSafe (c : Char) : Bool := !inFragmentEncodeSet c && decide (c.toNat ≠ 35)

/-- The step of the `filters.forEach` loop of `saveToHash()`. -/
def saveFilter (params : List (String × String)) (filter : Element) :
    List (String × String) :=
  if filter.value ≠ "" ∧ filter.value ≠ "all" then
    URLSearchParams.set params filter.id filter.value
  else params

/-- The `params` that `saveToHash()` builds: for each element of class
`filter-select`, in document order, whose value is neither empty nor `'all'`,
`params.set(filter.id, filter.value)`. -/
def savedParams (page : List Element) : List (String × String) :=
  (page.filter fun e => e.filterSelect).foldl saveFilter []

/-- `saveToHash()`: the hash of the page's address after the call. A non-empty
serialisation is assigned to `window.location.hash`; otherwise the address is
replaced by the path alone, which has no fragment. -/
def saveToHash (page : List Element) : String :=
  let hash := URLSearchParams.toString (savedParams page)
  if hash ≠ "" then setLocationHash hash else ""

/-- `window.languages` of `data.js`. -/
def languages : List String :=
  ["RIFT", "Python", "JavaScript", "Java", "C++", "Go", "Rust", "PHP", "Ruby", "C#"]

/-- The `id`s of `window.tasks` of `data.js`. -/
def taskIds : List String :=
  ["hello-world", "http-server", "array-filter", "class-definition", "async-fetch",
   "error-handling", "map-transform", "database-query", "pattern-matching"]

/-- Modelled from the spec: the markup of the comparison page is not among the
sources. The page holds the two selectors of the filter state, the language selector
`language-filter` and the task selector `task-filter` that `CodeComparison.init`
looks up, both of class `filter-select`, offering `all` and the known languages,
respectively `all` and the known task ids. -/
def filterPage (selectedLanguage selectedTask : String) : List Element :=
  [ { id := "language-filter", tagName := "SELECT", filterSelect := true,
      options := "all" :: languages, value := selectedLanguage },
    { id := "task-filter", tagName := "SELECT", filterSelect := true,
      options := "all" :: taskIds, value := selectedTask } ]

/-! ## Vocabulary for statements about the passes -/

/-- The character before the position reached after passing over the text `l`, when
`prev` was the character before `l`. -/
def lastOr (prev : Option Char) : List Char → Option Char
  | [] => prev
  | c :: rest => lastOr (some c) rest

/-- Whether the pattern `m` matches at some position of the text `l`, `prev` being
the character before `l`. -/
def matchesIn (m : Option Char → List Char → Option Nat) : Option Char → List Char → Bool
  | _, [] => false
  | prev, c :: rest => (m prev (c :: rest)).isSome || matchesIn m (some c) rest

/-- The characters the entities of the escaper are made of. -/
def entityChars : List Char := "&;ampltgnbs".data

/-- A quote character: one of the three characters that open a string literal. -/
def isQuote (c : Char) : Bool := c = squote || c = dquote || c = bquote

/-- A numeric token: the integer with the digits `ds` when `fs` is empty, the decimal
with the integer part `ds` and the fraction `fs` otherwise. -/
def numberToken (ds fs : List Char) : List Char :=
  match fs with
  | [] => ds
  | _ :: _ => ds ++ '.' :: fs

/-! # Theorems -/

/-! ## Lemmas on the escaper -/

theorem replaceChar_append (c : Char) (r s t : List Char) :
    replaceChar c r (s ++ t) = replaceChar c r s ++ replaceChar c r t := by
  simp [replaceChar]

theorem escapeHtmlChars_single (a : Char) : escapeHtmlChars [a] = entityOf a := by
  unfold escapeHtmlChars entityOf
  by_cases h1 : a = '&'
  · subst h1; decide
  by_cases h2 : a = '<'
  · subst h2; decide
  by_cases h3 : a = '>'
  · subst h3; decide
  by_cases h4 : a = nbsp
  · subst h4; decide
  simp [replaceChar, h1, h2, h3, h4]

theorem escapeHtmlChars_append (s t : List Char) :
    escapeHtmlChars (s ++ t) = escapeHtmlChars s ++ escapeHtmlChars t := by
  simp [escapeHtmlChars, replaceChar_append]

theorem escapeHtmlChars_eq_flatMap (text : List Char) :
    escapeHtmlChars text = text.flatMap entityOf := by
  induction text with
  | nil => rfl
  | cons a t ih =>
    have h : a :: t = [a] ++ t := rfl
    rw [h, escapeHtmlChars_append, ih, escapeHtmlChars_single]
    simp

theorem escapeHtmlChars_cons (a : Char) (t : List Char) :
    escapeHtmlChars (a :: t) = entityOf a ++ escapeHtmlChars t := by
  simp [escapeHtmlChars_eq_flatMap]

/-- The shapes of what the serialiser emits for one character. -/
theorem entityOf_cases (a : Char) :
    (entityOf a = [a] ∧ a ≠ '&' ∧ a ≠ '<') ∨
    ∃ e ∈ entityTails, entityOf a = '&' :: e.data := by
  by_cases h1 : a = '&'
  · subst h1; right; exact ⟨"amp;", by decide, by decide⟩
  by_cases h2 : a = '<'
  · subst h2; right; exact ⟨"lt;", by decide, by decide⟩
  by_cases h3 : a = '>'
  · subst h3; right; exact ⟨"gt;", by decide, by decide⟩
  by_cases h4 : a = nbsp
  · subst h4; right; exact ⟨"nbsp;", by decide, by decide⟩
  · left; simp [entityOf, h1, h2, h3, h4]

theorem entityTails_clean : ∀ e ∈ entityTails, '&' ∉ e.data ∧ '<' ∉ e.data := by decide

/-- A text that starts with a character other than `&` and holds an `&` further on. -/
theorem cons_eq_append_amp {x : Char} {l pre post : List Char} (hx : x ≠ '&')
    (h : x :: l = pre ++ '&' :: post) : ∃ pre2, pre = x :: pre2 ∧ l = pre2 ++ '&' :: post := by
  cases pre with
  | nil =>
    simp at h
    exact absurd h.1 hx
  | cons p pre2 =>
    simp at h
    exact ⟨pre2, by rw [h.1], h.2⟩

/-- An `&` in a text that starts with an `&`-free run lies after the run. -/
theorem append_eq_append_amp (w : List Char) {l pre post : List Char} (hw : '&' ∉ w)
    (h : w ++ l = pre ++ '&' :: post) : ∃ pre2, l = pre2 ++ '&' :: post := by
  induction w generalizing pre with
  | nil => exact ⟨pre, h⟩
  | cons x w ih =>
    simp only [List.mem_cons, not_or] at hw
    obtain ⟨pre2, _, h2⟩ := cons_eq_append_amp (fun e => hw.1 e.symm) h
    exact ih hw.2 h2

theorem amp_starts_entity (text pre post : List Char)
    (h : escapeHtmlChars text = pre ++ '&' :: post) :
    ∃ e ∈ entityTails, e.data <+: post := by
  induction text generalizing pre with
  | nil => simp [escapeHtmlChars, replaceChar] at h
  | cons a t ih =>
    rw [escapeHtmlChars_cons] at h
    rcases entityOf_cases a with ⟨h1, h2, _⟩ | ⟨e, he, h1⟩
    · rw [h1] at h
      obtain ⟨pre2, _, h3⟩ := cons_eq_append_amp h2 h
      exact ih pre2 h3
    · rw [h1] at h
      cases pre with
      | nil =>
        simp only [List.cons_append, List.nil_append, List.cons.injEq, true_and] at h
        exact ⟨e, he, ⟨escapeHtmlChars t, h⟩⟩
      | cons p pre1 =>
        simp only [List.cons_append, List.cons.injEq] at h
        obtain ⟨pre2, h3⟩ := append_eq_append_amp e.data (entityTails_clean e he).1 h.2
        exact ih pre2 h3

theorem lt_not_mem_escapeHtmlChars (text : List Char) : '<' ∉ escapeHtmlChars text := by
  rw [escapeHtmlChars_eq_flatMap]
  simp only [List.mem_flatMap, not_exists, not_and]
  intro a _
  rcases entityOf_cases a with ⟨h1, _, h3⟩ | ⟨e, he, h1⟩ <;> rw [h1]
  · simpa using Ne.symm h3
  · simp only [List.mem_cons, not_or]
    exact ⟨by decide, (entityTails_clean e he).2⟩

/-! ## Lemmas on `toLowerCase` and the catalogue filter -/

theorem lowerAscii_ascii {c x : Char} (h : lowerAscii c = x) (hx : x.toNat < 128) :
    c.toNat < 128 := by
  unfold lowerAscii at h
  split at h
  · omega
  · rw [h]; exact hx

theorem all_ascii_of_map_lowerAscii (l : List Char)
    (h : ∀ x ∈ l.map lowerAscii, x.toNat < 128) : ∀ c ∈ l, c.toNat < 128 := by
  intro c hc
  exact lowerAscii_ascii rfl (h _ (List.mem_map_of_mem _ hc))

theorem toLowerCase_of_map (lowerUnicode : String → String) (language : String)
    (h : language.data.map lowerAscii = "rift".data) :
    toLowerCase lowerUnicode language = "rift" := by
  have hall : language.data.all (fun c => decide (c.toNat < 128)) = true := by
    rw [List.all_eq_true]
    intro c hc
    have := all_ascii_of_map_lowerAscii language.data (by rw [h]; decide) c hc
    simpa using this
  simp only [toLowerCase, hall, if_true, h]

theorem filteredData_eq_filter (data : List Snippet) (selectedLanguage selectedTask : String) :
    filteredData data selectedLanguage selectedTask =
      data.filter (selected selectedLanguage selectedTask) := by
  unfold filteredData selected
  by_cases hl : selectedLanguage = "all" <;> by_cases ht : selectedTask = "all" <;>
    simp [hl, ht, List.filter_filter, Bool.and_comm]

/-! ## Claims on `highlightCode`, `render` and `escapeHtml` -/

/-- C1: `highlightCode(code, language)` is `escapeHtml(code)` whenever
`language.toLowerCase()` is not `'rift'` and `highlightRift(code)` whenever it is,
which covers every spelling of `rift` in upper and lower case letters, `'RIFT'`,
`'Rift'` and `'rift'` among them. -/
theorem highlightCode_dispatch (lowerUnicode : String → String) (code language : String) :
    (toLowerCase lowerUnicode language ≠ "rift" →
      highlightCode lowerUnicode code language = escapeHtml code) ∧
    (toLowerCase lowerUnicode language = "rift" →
      highlightCode lowerUnicode code language = highlightRift code) ∧
    (language.data.map lowerAscii = "rift".data →
      highlightCode lowerUnicode code language = highlightRift code) ∧
    highlightCode lowerUnicode code "RIFT" = highlightRift code ∧
    highlightCode lowerUnicode code "Rift" = highlightRift code ∧
    highlightCode lowerUnicode code "rift" = highlightRift code ∧
    highlightCode lowerUnicode code "Python" = escapeHtml code := by
  refine ⟨fun h => by simp [highlightCode, h], fun h => by simp [highlightCode, h],
    fun h => by simp [highlightCode, toLowerCase_of_map lowerUnicode language h], ?_, ?_, ?_, ?_⟩
  · simp [highlightCode, toLowerCase_of_map lowerUnicode "RIFT" (by decide)]
  · simp [highlightCode, toLowerCase_of_map lowerUnicode "Rift" (by decide)]
  · simp [highlightCode, toLowerCase_of_map lowerUnicode "rift" (by decide)]
  · have h : toLowerCase lowerUnicode "Python" = "python" := by rfl
    simp [highlightCode, h]

/-- C1, at a concrete input: the mixed-case tag `rIfT` selects the highlighter and
the tag `JavaScript` the plain escaper. -/
theorem highlightCode_dispatch_witness :
    highlightCode id "a < b" "rIfT" = highlightRift "a < b" ∧
    highlightCode id "a < b" "JavaScript" = "a &lt; b" :=
  ⟨(highlightCode_dispatch id "a < b" "rIfT").2.2.1 (by decide),
   ((highlightCode_dispatch id "a < b" "JavaScript").1 (by decide)).trans (by decide)⟩

/-- C2: the snippets `render` turns into cards are the order-preserving subsequence of
the catalogue whose language and task pass the two selectors; with both selectors
`'all'` it is the whole catalogue, and when nothing matches it is empty. -/
theorem render_filter (lowerUnicode : String → String) (data : List Snippet)
    (selectedLanguage selectedTask : String) :
    filteredData data selectedLanguage selectedTask =
      data.filter (fun s =>
        (decide (selectedLanguage = "all") || decide (s.language = selectedLanguage)) &&
        (decide (selectedTask = "all") || decide (s.task = selectedTask))) ∧
    render lowerUnicode data (some selectedLanguage) (some selectedTask) =
      (data.filter (selected selectedLanguage selectedTask)).enum.map
        (fun p => createComparisonCard lowerUnicode p.2 p.1) ∧
    (filteredData data selectedLanguage selectedTask).Sublist data ∧
    (∀ s, s ∈ filteredData data selectedLanguage selectedTask ↔
      s ∈ data ∧ (selectedLanguage = "all" ∨ s.language = selectedLanguage) ∧
        (selectedTask = "all" ∨ s.task = selectedTask)) ∧
    filteredData data "all" "all" = data ∧
    render lowerUnicode data none none =
      data.enum.map (fun p => createComparisonCard lowerUnicode p.2 p.1) ∧
    ((∀ s ∈ data, selected selectedLanguage selectedTask s = false) →
      filteredData data selectedLanguage selectedTask = [] ∧
      render lowerUnicode data (some selectedLanguage) (some selectedTask) = []) ∧
    (selectedLanguage ≠ "all" → (∀ s ∈ data, s.language ≠ selectedLanguage) →
      filteredData data selectedLanguage selectedTask = []) := by
  have hf := filteredData_eq_filter data selectedLanguage selectedTask
  have hall : filteredData data "all" "all" = data := by simp [filteredData]
  refine ⟨hf, ?_, ?_, ?_, hall, ?_, ?_, ?_⟩
  · simp [render, selectorValue, hf]
  · rw [hf]; exact List.filter_sublist data
  · intro s
    rw [hf]
    simp [selected]
  · simp [render, selectorValue, hall]
  · intro h
    have : filteredData data selectedLanguage selectedTask = [] := by
      rw [hf, List.filter_eq_nil_iff]
      intro s hs
      simp [h s hs]
    simp [render, selectorValue, this]
  · intro hne h
    rw [hf, List.filter_eq_nil_iff]
    intro s hs
    simp [selected, hne, h s hs]

/-- C2, at a concrete catalogue with a duplicate: selecting `Python` keeps both Python
snippets in order, and selecting a language no snippet has gives no card. -/
theorem render_filter_witness :
    filteredData [⟨"RIFT", "t", "a", 1, 1⟩, ⟨"Python", "t", "b", 1, 1⟩,
        ⟨"Python", "t", "b", 1, 1⟩] "Python" "all" =
      [⟨"Python", "t", "b", 1, 1⟩, ⟨"Python", "t", "b", 1, 1⟩] ∧
    filteredData [⟨"RIFT", "t", "a", 1, 1⟩, ⟨"Python", "t", "b", 1, 1⟩] "Klingon" "t" = [] :=
  ⟨by decide,
   (render_filter id [⟨"RIFT", "t", "a", 1, 1⟩, ⟨"Python", "t", "b", 1, 1⟩] "Klingon" "t").2.2.2.2.2.2.2
     (by decide) (by decide)⟩

/-- C3, as stated, fails: a double quote and a single quote of the input are still in
the output, so the output is not the text with all five characters replaced. -/
theorem escapeHtml_keeps_quotes :
    escapeHtml "say \"hi\" & 'bye'" = "say \"hi\" &amp; 'bye'" ∧
    (escapeHtml "say \"hi\" & 'bye'").data ≠ "say \"hi\" & 'bye'".data.flatMap entityOfFive ∧
    dquote ∈ (escapeHtml "say \"hi\" & 'bye'").data ∧
    squote ∈ (escapeHtml "say \"hi\" & 'bye'").data := by
  decide

/-- C3, amended: `escapeHtml` maps every `&`, `<` and `>` (and every no-break space
U+00A0) to its entity and passes every other character, the double and the single
quote included, through unchanged: the output is the concatenation, character by
character, of those pieces. -/
theorem escapeHtml_charwise (text : String) :
    (escapeHtml text).data = text.data.flatMap entityOf ∧
    entityOf '&' = "&amp;".data ∧ entityOf '<' = "&lt;".data ∧
    entityOf '>' = "&gt;".data ∧ entityOf nbsp = "&nbsp;".data ∧
    entityOf dquote = [dquote] ∧ entityOf squote = [squote] ∧
    (∀ c : Char, c ≠ '&' → c ≠ '<' → c ≠ '>' → c ≠ nbsp → entityOf c = [c]) := by
  refine ⟨escapeHtmlChars_eq_flatMap text.data, by decide, by decide, by decide, by decide,
    by decide, by decide, ?_⟩
  intro c h1 h2 h3 h4
  simp [entityOf, h1, h2, h3, h4]

/-- C3 amended, at a concrete character: the letter `x` passes through unchanged. -/
theorem escapeHtml_charwise_witness : entityOf 'x' = ['x'] :=
  (escapeHtml_charwise "x").2.2.2.2.2.2.2 'x' (by decide) (by decide) (by decide) (by decide)

/-- C4: `escapeHtml` returns, for every text, a text without `<` in which every `&`
starts an entity the escaper emits (`&amp;`, `&lt;`, `&gt;` or `&nbsp;`); the empty
text gives the empty text. -/
theorem escapeHtml_no_live_markup (text : String) :
    '<' ∉ (escapeHtml text).data ∧
    (∀ pre post : List Char, (escapeHtml text).data = pre ++ '&' :: post →
      ∃ e ∈ entityTails, e.data <+: post) ∧
    escapeHtml "" = "" :=
  ⟨lt_not_mem_escapeHtmlChars text.data, fun pre post h => amp_starts_entity text.data pre post h,
   by decide⟩

/-- C4, at a concrete input: the `&` the escaper writes for `<` in `a<b` starts `&lt;`. -/
theorem escapeHtml_no_live_markup_witness : ∃ e ∈ entityTails, e.data <+: "lt;b".data :=
  (escapeHtml_no_live_markup "a<b").2.1 ['a'] "lt;b".data (by decide)

/-! ## Lemmas on the keyword pass -/

set_option maxRecDepth 20000

theorem lastChar_append_singleton (pre : List Char) (c : Char) :
    lastChar (pre ++ [c]) = some c := by
  induction pre with
  | nil => rfl
  | cons a t ih =>
    cases t with
    | nil => rfl
    | cons b t2 =>
      have h : lastChar (a :: (b :: t2) ++ [c]) = lastChar ((b :: t2) ++ [c]) := rfl
      rw [h, ih]

/-- A global replacement whose pattern matches at no position returns the text. -/
theorem replaceAll_eq_self (m : Option Char → List Char → Option Nat)
    (f : List Char → List Char) (l pre : List Char)
    (h : ∀ p s, l = p ++ s → m (lastChar (pre ++ p)) s = none) :
    replaceAll m f (lastChar pre) 0 l = l := by
  induction l generalizing pre with
  | nil => rfl
  | cons c rest ih =>
    have h0 : m (lastChar pre) (c :: rest) = none := by simpa using h [] (c :: rest) rfl
    have h1 : replaceAll m f (some c) 0 rest = rest := by
      rw [← lastChar_append_singleton pre c]
      apply ih
      intro p s hps
      have := h (c :: p) s (by rw [hps]; rfl)
      simpa using this
    simp only [replaceAll, h0, h1]

/-- Every keyword begins and ends with a word character. -/
theorem keywords_wordy :
    ∀ K ∈ keywords, isWordAt K.data.head? = true ∧ isWordAt (lastChar K.data) = true := by
  decide

theorem head?_append_of_isWordAt {K post : List Char} (h : isWordAt K.head? = true) :
    (K ++ post).head? = K.head? := by
  cases K with
  | nil => simp [isWordAt] at h
  | cons a t => rfl

/-- The pattern `\bK\b` does not match an occurrence of the letters of a keyword `K`
that has a word character right before it or right after it. -/
theorem matchKeyword_flanked (K : String) (hK : K ∈ keywords) (pre post : List Char)
    (h : isWordAt (lastChar pre) = true ∨ isWordAt post.head? = true) :
    matchKeyword K.data (lastChar pre) (K.data ++ post) = none := by
  obtain ⟨hh, hl⟩ := keywords_wordy K hK
  unfold matchKeyword
  rw [head?_append_of_isWordAt hh, List.drop_left]
  rcases h with h | h
  · simp [wordBoundary, hh, h]
  · simp [wordBoundary, hl, h]

/-- The pattern `\bK\b` does not match a text of the length of `K` that differs from
`K`, in letter case or otherwise. -/
theorem matchKeyword_other (K occ : List Char) (prev : Option Char) (post : List Char)
    (hlen : occ.length = K.length) (hne : occ ≠ K) :
    matchKeyword K prev (occ ++ post) = none := by
  unfold matchKeyword
  have hp : K.isPrefixOf (occ ++ post) = false := by
    rw [Bool.eq_false_iff]
    intro hpre
    rw [List.isPrefixOf_iff_prefix] at hpre
    have h1 : K <+: occ :=
      List.prefix_of_prefix_length_le hpre (List.prefix_append occ post) (by omega)
    exact hne (h1.eq_of_length hlen.symm).symm
  simp [hp]

/-- The keyword pass returns a text unchanged when each occurrence of a keyword in it
has a word character right before it or right after it. -/
theorem highlightKeywords_eq_self (t : List Char)
    (h : ∀ K ∈ keywords, ∀ pre post, t = pre ++ K.data ++ post →
      isWordAt (lastChar pre) = true ∨ isWordAt post.head? = true) :
    highlightKeywords t = t := by
  have step : ∀ K ∈ keywords, replaceKeyword t K = t := by
    intro K hK
    have := replaceAll_eq_self (matchKeyword K.data) (fun _ => span "keyword" K.data) t [] (by
      intro p s hps
      by_cases hpre : K.data.isPrefixOf s = true
      · rw [List.isPrefixOf_iff_prefix] at hpre
        obtain ⟨post, rfl⟩ := hpre
        exact matchKeyword_flanked K hK p post (h K hK p post (by rw [hps, List.append_assoc]))
      · simp [matchKeyword, hpre])
    simpa [replaceKeyword, lastChar] using this
  unfold highlightKeywords
  generalize keywords = ks at step
  induction ks with
  | nil => rfl
  | cons K ks ih =>
    rw [List.foldl_cons, step K (List.mem_cons_self K ks)]
    exact ih fun K2 h2 => step K2 (List.mem_cons_of_mem K h2)

/-! ## Claims on the keyword pass -/

/-- C5, on the code: for `let x = 1` the string pass wraps the `"keyword"` attribute
value that the keyword pass wrote, so the markup returned does not contain the
annotation `<span class="keyword">let</span>`. -/
theorem highlightCode_let_breaks_keyword_span (lowerUnicode : String → String) :
    highlightCode lowerUnicode "let x = 1" "RIFT" =
      "<span class=<span class=\"string\">\"keyword\"</span>>let</span> x = <span class=\"number\">1</span>" ∧
    ¬ ("<span class=\"keyword\">let</span>".data <:+:
        (highlightCode lowerUnicode "let x = 1" "RIFT").data) ∧
    highlightKeywords (escapeHtmlChars "let x = 1".data) =
      "<span class=\"keyword\">let</span> x = 1".data := by
  have h : highlightCode lowerUnicode "let x = 1" "RIFT" = highlightRift "let x = 1" := by rfl
  rw [h]
  exact ⟨by decide, by decide, by decide⟩

/-- C6: `highlightCode('letter = 1', 'RIFT')` holds no keyword annotation; the
pattern of a keyword does not match an occurrence of its letters that has a word
character right before or right after it, nor a text that differs from the keyword
(for instance in letter case); and a text whose keyword occurrences are all so
flanked leaves the keyword pass unchanged. -/
theorem keyword_whole_word (lowerUnicode : String → String) :
    highlightCode lowerUnicode "letter = 1" "RIFT" =
      "letter = <span class=\"number\">1</span>" ∧
    ¬ ("class=\"keyword\"".data <:+: (highlightCode lowerUnicode "letter = 1" "RIFT").data) ∧
    highlightCode lowerUnicode "LET x" "RIFT" = "LET x" ∧
    (∀ K ∈ keywords, ∀ pre occ post : List Char, occ.length = K.data.length →
      (isWordAt (lastChar pre) = true ∨ isWordAt post.head? = true ∨ occ ≠ K.data) →
      matchKeyword K.data (lastChar pre) (occ ++ post) = none) ∧
    (∀ t : List Char,
      (∀ K ∈ keywords, ∀ pre post, t = pre ++ K.data ++ post →
        isWordAt (lastChar pre) = true ∨ isWordAt post.head? = true) →
      highlightKeywords t = t) := by
  have h1 : highlightCode lowerUnicode "letter = 1" "RIFT" = highlightRift "letter = 1" := by rfl
  have h2 : highlightCode lowerUnicode "LET x" "RIFT" = highlightRift "LET x" := by rfl
  rw [h1, h2]
  refine ⟨by decide, by decide, by decide, ?_, highlightKeywords_eq_self⟩
  intro K hK pre occ post hlen h
  by_cases hocc : occ = K.data
  · subst hocc
    rcases h with h | h | h
    · exact matchKeyword_flanked K hK pre post (Or.inl h)
    · exact matchKeyword_flanked K hK pre post (Or.inr h)
    · exact absurd rfl h
  · exact matchKeyword_other K.data occ (lastChar pre) post hlen hocc

/-- C6, at concrete inputs: `let` inside `letter` and inside `outlet`, and `Let` in
another letter case, are not matched; `letter = 1` leaves the keyword pass unchanged. -/
theorem keyword_whole_word_witness :
    matchKeyword "let".data none "letter = 1".data = none ∧
    matchKeyword "let".data (some 't') "let".data = none ∧
    matchKeyword "let".data none "Let x".data = none :=
  ⟨(keyword_whole_word id).2.2.2.1 "let" (by decide) [] "let".data "ter = 1".data rfl
      (Or.inr (Or.inl (by decide))),
   (keyword_whole_word id).2.2.2.1 "let" (by decide) "out".data "let".data [] rfl
      (Or.inl (by decide)),
   (keyword_whole_word id).2.2.2.1 "let" (by decide) [] "Let".data " x".data rfl
      (Or.inr (Or.inr (by decide)))⟩

/-! ## Lemmas on the line metric -/

theorem splitOn_length (sep : Char) (l : List Char) :
    (splitOn sep l).length = 1 + l.count sep := by
  induction l with
  | nil => rfl
  | cons c rest ih =>
    unfold splitOn
    by_cases h : c = sep
    · subst h
      simp [ih]
      omega
    · have hc : (c == sep) = false := by simpa using h
      rw [if_neg h, List.count_cons, hc]
      cases hs : splitOn sep rest with
      | nil => rw [hs] at ih; simp at ih; omega
      | cons seg segs => rw [hs] at ih; simpa using ih

/-! ## Claim on the line metric -/

/-- C10: the line metric of a card is the number of segments of `code.split('\n')`,
which is one more than the number of newline characters of the code (1 for the empty
code, a trailing newline adding a final empty segment); it does not depend on the
`lines` (or `chars`) field of the record; it is 2 for the two-line hello-world code. -/
theorem card_lines (lowerUnicode : String → String) (data : Snippet) (index : Nat) :
    (createComparisonCard lowerUnicode data index).lines = 1 + data.code.data.count '\n' ∧
    (createComparisonCard lowerUnicode data index).lines = (splitOn '\n' data.code.data).length ∧
    (∀ lines chars : Nat,
      (createComparisonCard lowerUnicode { data with lines := lines, chars := chars } index).lines =
        (createComparisonCard lowerUnicode data index).lines) ∧
    (createComparisonCard lowerUnicode { data with code := "" } index).lines = 1 ∧
    splitOn '\n' "a\n".data = ["a".data, []] ∧
    (createComparisonCard lowerUnicode { data with code := "a\n" } index).lines = 2 ∧
    (createComparisonCard lowerUnicode
      { data with code := "let name = \"World\"\nprint(name)", lines := 7 } index).lines = 2 := by
  refine ⟨splitOn_length _ _, rfl, fun _ _ => rfl, ?_, by decide, ?_, ?_⟩ <;>
    simp only [createComparisonCard] <;> decide

/-! ## Lemmas on `saveToHash` -/

theorem set_of_fresh (params : List (String × String)) (name value : String)
    (h : ∀ p ∈ params, p.1 ≠ name) :
    URLSearchParams.set params name value = params ++ [(name, value)] := by
  unfold URLSearchParams.set
  have : params.any (fun p => decide (p.1 = name)) = false := by
    rw [List.any_eq_false]
    intro p hp
    simpa using h p hp
  simp [this]

/-- With pairwise distinct ids, the loop of `saveToHash` appends one pair for each
filter whose value is neither empty nor `'all'`. -/
theorem foldl_saveFilter (l : List Element) (acc : List (String × String))
    (hids : (l.map (·.id)).Nodup) (hacc : ∀ e ∈ l, ∀ p ∈ acc, p.1 ≠ e.id) :
    l.foldl saveFilter acc =
      acc ++ (l.filter fun e => decide (e.value ≠ "") && decide (e.value ≠ "all")).map
        fun e => (e.id, e.value) := by
  induction l generalizing acc with
  | nil => simp
  | cons e es ih =>
    rw [List.map_cons, List.nodup_cons] at hids
    rw [List.foldl_cons]
    by_cases hk : e.value ≠ "" ∧ e.value ≠ "all"
    · have hstep : saveFilter acc e = acc ++ [(e.id, e.value)] := by
        unfold saveFilter
        rw [if_pos hk]
        exact set_of_fresh acc e.id e.value (hacc e (List.mem_cons_self e es))
      rw [hstep, ih _ hids.2]
      · simp [hk.1, hk.2]
      · intro e2 he2 p hp
        rw [List.mem_append] at hp
        rcases hp with hp | hp
        · exact hacc e2 (List.mem_cons_of_mem e he2) p hp
        · simp only [List.mem_singleton] at hp
          subst hp
          intro heq
          have heq2 : e.id = e2.id := heq
          exact hids.1 (by rw [heq2]; exact List.mem_map_of_mem _ he2)
    · have hstep : saveFilter acc e = acc := by
        unfold saveFilter
        rw [if_neg hk]
      rw [hstep, ih _ hids.2 (fun e2 he2 => hacc e2 (List.mem_cons_of_mem e he2))]
      have : (decide (e.value ≠ "") && decide (e.value ≠ "all")) = false := by
        simpa using hk
      simp only [List.filter_cons, this]
      simp

theorem utf8Bytes_lt (c : Char) : ∀ b ∈ utf8Bytes c, b < 256 := by
  have hc : c.toNat < 1114112 := by
    have := c.valid
    simp only [Char.toNat, UInt32.isValidChar, Nat.isValidChar] at *
    omega
  intro b hb
  unfold utf8Bytes at hb
  simp only at hb
  split_ifs at hb <;> simp at hb <;> omega

theorem urlencodeByte_safe : ∀ b, b < 256 → ∀ c ∈ urlencodeByte b, hashSafe c = true := by
  decide

theorem urlencode_safe (s : String) : ∀ c ∈ urlencode s, hashSafe c = true := by
  intro c hc
  simp only [urlencode, utf8Encode, List.mem_flatMap] at hc
  obtain ⟨b, ⟨a, _, hb⟩, hcb⟩ := hc
  exact urlencodeByte_safe b (utf8Bytes_lt a b hb) c hcb

theorem mem_of_mem_intersperse {sep x : List Char} :
    ∀ {ls : List (List Char)}, x ∈ ls.intersperse sep → x ∈ ls ∨ x = sep
  | [], h => by simp at h
  | [a], h => by
    simp only [List.intersperse_single, List.mem_singleton] at h
    exact Or.inl (h ▸ List.mem_singleton_self a)
  | a :: b :: t, h => by
    rw [List.intersperse_cons₂, List.mem_cons, List.mem_cons] at h
    rcases h with h | h | h
    · exact Or.inl (h ▸ List.mem_cons_self a _)
    · exact Or.inr h
    · rcases mem_of_mem_intersperse h with h2 | h2
      · exact Or.inl (List.mem_cons_of_mem a h2)
      · exact Or.inr h2

theorem mem_intercalate_sep {sep : List Char} {ls : List (List Char)} {c : Char}
    (h : c ∈ List.intercalate sep ls) : c ∈ sep ∨ ∃ l ∈ ls, c ∈ l := by
  simp only [List.intercalate, List.mem_flatten] at h
  obtain ⟨l, hl, hc⟩ := h
  rcases mem_of_mem_intersperse hl with h1 | h1
  · exact Or.inr ⟨l, h1, hc⟩
  · exact Or.inl (h1 ▸ hc)

theorem toString_safe (params : List (String × String)) :
    ∀ c ∈ (URLSearchParams.toString params).data, hashSafe c = true := by
  intro c hc
  rcases mem_intercalate_sep hc with h | ⟨l, hl, hcl⟩
  · simp only [List.mem_singleton] at h
    subst h
    decide
  · simp only [List.mem_map] at hl
    obtain ⟨p, _, rfl⟩ := hl
    simp only [pairText, List.mem_append, List.mem_cons] at hcl
    rcases hcl with h | h | h
    · exact urlencode_safe _ c h
    · subst h; decide
    · exact urlencode_safe _ c h

/-- Assigning a text of safe characters to `location.hash` stores that text. -/
theorem setLocationHash_of_safe (l : List Char) (h : ∀ c ∈ l, hashSafe c = true) :
    setLocationHash ⟨l⟩ = ⟨l⟩ := by
  have hfrag : ∀ c ∈ l, inFragmentEncodeSet c = false ∧ c.toNat ≠ 35 := by
    intro c hc
    have := h c hc
    simpa [hashSafe] using this
  have hinput : stripLeading '#' l = l := by
    cases l with
    | nil => rfl
    | cons a t =>
      have : a ≠ '#' := by
        intro ha
        exact (hfrag a (List.mem_cons_self a t)).2 (by rw [ha]; rfl)
      simp [stripLeading, this]
  unfold setLocationHash
  simp only [hinput]
  have hkeep : l.filter (fun c => !(decide (c.toNat = 9) || decide (c.toNat = 10) ||
      decide (c.toNat = 13))) = l := by
    rw [List.filter_eq_self]
    intro c hc
    have := (hfrag c hc).1
    simp only [inFragmentEncodeSet, Bool.or_eq_false_iff, decide_eq_false_iff_not] at this
    simp only [Bool.not_eq_true', Bool.or_eq_false_iff, decide_eq_false_iff_not]
    omega
  rw [hkeep]
  congr 1
  clear hinput hkeep h
  induction l with
  | nil => rfl
  | cons a t ih =>
    rw [List.flatMap_cons, ih (fun c hc => hfrag c (List.mem_cons_of_mem a hc))]
    simp [(hfrag a (List.mem_cons_self a t)).1]

theorem saveToHash_eq_toString (page : List Element) :
    saveToHash page = URLSearchParams.toString (savedParams page) := by
  unfold saveToHash
  simp only
  split
  · exact setLocationHash_of_safe _ (toString_safe _)
  · rename_i h
    simp only [ne_eq, not_not] at h
    exact h.symm

/-! ## Lemmas on `loadFromHash` -/

theorem setValue_shape (e : Element) (value : String) : (e.setValue value).shape = e.shape := rfl

theorem assignFirst_shape (key value : String) (page : List Element) :
    (assignFirst key value page).map Element.shape = page.map Element.shape := by
  induction page with
  | nil => rfl
  | cons e es ih =>
    unfold assignFirst
    split
    · split <;> simp [setValue_shape]
    · simp [ih]

theorem applyPair_shape (page : List Element) (p : String × String) :
    (applyPair page p).map Element.shape = page.map Element.shape := by
  unfold applyPair
  split
  · rfl
  · exact assignFirst_shape _ _ _

theorem foldl_applyPair_shape (ps : List (String × String)) (page : List Element) :
    (ps.foldl applyPair page).map Element.shape = page.map Element.shape := by
  induction ps generalizing page with
  | nil => rfl
  | cons p ps ih => rw [List.foldl_cons, ih, applyPair_shape]

/-- A pair whose key is the id of no `SELECT` element changes nothing. -/
theorem applyPair_unknown (page : List Element) (p : String × String)
    (h : ∀ e ∈ page, e.id = p.1 → e.tagName ≠ "SELECT") : applyPair page p = page := by
  unfold applyPair
  split
  · rfl
  · induction page with
    | nil => rfl
    | cons e es ih =>
      unfold assignFirst
      by_cases hid : e.id = p.1
      · simp [hid, h e (List.mem_cons_self e es) hid]
      · rw [if_neg hid, ih (fun e2 he2 => h e2 (List.mem_cons_of_mem e he2))]

/-- A pair leaves in place every element whose id is not its key. -/
theorem applyPair_getElem? (page : List Element) (p : String × String) (i : Nat)
    (e : Element) (he : page[i]? = some e) (hne : p.1 ≠ e.id) :
    (applyPair page p)[i]? = some e := by
  unfold applyPair
  split
  · exact he
  · induction page generalizing i with
    | nil => simp at he
    | cons a es ih =>
      unfold assignFirst
      cases i with
      | zero =>
        simp only [List.getElem?_cons_zero, Option.some.injEq] at he
        subst he
        rw [if_neg (fun h => hne h.symm)]
        simp
      | succ j =>
        simp only [List.getElem?_cons_succ] at he
        split
        · simpa using he
        · simpa using ih j he

theorem foldl_applyPair_getElem? (ps : List (String × String)) (page : List Element)
    (i : Nat) (e : Element) (he : page[i]? = some e) (hne : ∀ p ∈ ps, p.1 ≠ e.id) :
    (ps.foldl applyPair page)[i]? = some e := by
  induction ps generalizing page with
  | nil => exact he
  | cons p ps ih =>
    rw [List.foldl_cons]
    exact ih _ (applyPair_getElem? page p i e he (hne p (List.mem_cons_self p ps)))
      (fun q hq => hne q (List.mem_cons_of_mem p hq))

theorem mem_of_map_shape_eq {page page2 : List Element}
    (h : page2.map Element.shape = page.map Element.shape) {e : Element} (he : e ∈ page2) :
    ∃ e0 ∈ page, e0.id = e.id ∧ e0.tagName = e.tagName := by
  have : e.shape ∈ page.map Element.shape := h ▸ List.mem_map_of_mem _ he
  obtain ⟨e0, h0, hs⟩ := List.mem_map.mp this
  simp only [Element.shape, Prod.mk.injEq] at hs
  exact ⟨e0, h0, hs.1, hs.2.1⟩

/-- Applying pairs equals applying those among them whose key is the id of a `SELECT`
element of the page. -/
theorem foldl_applyPair_filter (ps : List (String × String)) (page : List Element) :
    ps.foldl applyPair page =
      (ps.filter fun p => page.any fun e => decide (e.id = p.1) && decide (e.tagName = "SELECT")).foldl
        applyPair page := by
  suffices H : ∀ (cur : List Element), cur.map Element.shape = page.map Element.shape →
      ps.foldl applyPair cur =
        (ps.filter fun p => page.any fun e =>
          decide (e.id = p.1) && decide (e.tagName = "SELECT")).foldl applyPair cur from H page rfl
  induction ps with
  | nil => intro cur _; rfl
  | cons p ps ih =>
    intro cur hcur
    rw [List.foldl_cons, List.filter_cons]
    split
    · rw [List.foldl_cons]
      exact ih _ ((applyPair_shape cur p).trans hcur)
    · rename_i hp
      have hun : applyPair cur p = cur := by
        apply applyPair_unknown
        intro e he hid htag
        apply hp
        obtain ⟨e0, h0, h1, h2⟩ := mem_of_map_shape_eq hcur he
        rw [List.any_eq_true]
        exact ⟨e0, h0, by simp [h1, h2, hid, htag]⟩
      rw [hun]
      exact ih cur hcur

/-- The round trip of the codec over the known languages and task ids. -/
theorem round_trip_known :
    ∀ l ∈ "all" :: languages, ∀ t ∈ "all" :: taskIds, (l ≠ "all" ∨ t ≠ "all") →
      loadFromHash (filterPage "all" "all") (saveToHash (filterPage l t)) = filterPage l t := by
  decide

/-! ## Claims on the hash codec -/

/-- C7: for every filter state with a non-default selector, whose values are `all` or
a known language (`C++` and `C#` included) or task id, writing the state with
`saveToHash` and reading the resulting hash with `loadFromHash` from the default
state gives a page whose selectors have the values of the original state. -/
theorem codec_round_trip (selectedLanguage selectedTask : String)
    (hl : selectedLanguage ∈ "all" :: languages) (ht : selectedTask ∈ "all" :: taskIds)
    (h : selectedLanguage ≠ "all" ∨ selectedTask ≠ "all") :
    loadFromHash (filterPage "all" "all") (saveToHash (filterPage selectedLanguage selectedTask)) =
      filterPage selectedLanguage selectedTask ∧
    (loadFromHash (filterPage "all" "all")
        (saveToHash (filterPage selectedLanguage selectedTask))).map (·.value) =
      [selectedLanguage, selectedTask] := by
  have := round_trip_known selectedLanguage hl selectedTask ht h
  exact ⟨this, by rw [this]; rfl⟩

/-- C7, at a concrete state: language `C++` and task `all` are written as
`language-filter=C%2B%2B` and read back as `C++` and `all`. -/
theorem codec_round_trip_witness :
    saveToHash (filterPage "C++" "all") = "language-filter=C%2B%2B" ∧
    (loadFromHash (filterPage "all" "all") (saveToHash (filterPage "C++" "all"))).map (·.value) =
      ["C++", "all"] :=
  ⟨by decide, (codec_round_trip "C++" "all" (by decide) (by decide) (Or.inl (by decide))).2⟩

/-- C8, as stated, fails: reading `language-filter=Klingon` from the default state
leaves the language selector with the empty value, which is not `all`; `saveToHash`
then writes no pair for it, where one pair for each selector whose value is not `all`
would be `language-filter=`. -/
theorem saveToHash_skips_empty_value :
    loadFromHash (filterPage "all" "all") "language-filter=Klingon" = filterPage "" "all" ∧
    saveToHash (filterPage "" "all") = "" ∧
    (String.mk (List.intercalate ['&']
      (((filterPage "" "all").filter fun e => e.filterSelect && decide (e.value ≠ "all")).map
        fun e => urlencode e.id ++ '=' :: urlencode e.value))) = "language-filter=" := by
  decide

/-- C8, amended: for every state of the two selectors, and for every page whose filters
have pairwise distinct ids, the hash `saveToHash` writes is the percent-encoded
`id=value` pairs, joined by `&`, of exactly the filters whose value is neither empty
nor `all`, in document order; it is empty when every filter has the value `all` or
the empty value, as in the default state. -/
theorem saveToHash_pairs (selectedLanguage selectedTask : String) :
    saveToHash (filterPage selectedLanguage selectedTask) =
      ⟨List.intercalate ['&']
        (((filterPage selectedLanguage selectedTask).filter fun e =>
            e.filterSelect && decide (e.value ≠ "") && decide (e.value ≠ "all")).map
          fun e => urlencode e.id ++ '=' :: urlencode e.value)⟩ ∧
    (∀ page : List Element, ((page.filter fun e => e.filterSelect).map (·.id)).Nodup →
      saveToHash page =
        ⟨List.intercalate ['&']
          ((page.filter fun e =>
              e.filterSelect && decide (e.value ≠ "") && decide (e.value ≠ "all")).map
            fun e => urlencode e.id ++ '=' :: urlencode e.value)⟩) ∧
    (∀ page : List Element, ((page.filter fun e => e.filterSelect).map (·.id)).Nodup →
      (∀ e ∈ page, e.filterSelect = true → e.value = "all" ∨ e.value = "") →
      saveToHash page = "") ∧
    saveToHash (filterPage "all" "all") = "" := by
  have hmain : ∀ page : List Element,
      ((page.filter fun e => e.filterSelect).map (·.id)).Nodup →
      saveToHash page =
        ⟨List.intercalate ['&']
          ((page.filter fun e =>
              e.filterSelect && decide (e.value ≠ "") && decide (e.value ≠ "all")).map
            fun e => urlencode e.id ++ '=' :: urlencode e.value)⟩ := by
    intro page hids
    rw [saveToHash_eq_toString, savedParams, foldl_saveFilter _ [] hids (by simp)]
    have hfilter : (page.filter fun e => e.filterSelect).filter
          (fun e => decide (e.value ≠ "") && decide (e.value ≠ "all")) =
        page.filter fun e =>
          e.filterSelect && decide (e.value ≠ "") && decide (e.value ≠ "all") := by
      rw [List.filter_filter]
      apply List.filter_congr
      intro e _
      cases e.filterSelect <;> simp
    rw [hfilter]
    simp [URLSearchParams.toString, pairText, List.map_map, Function.comp_def]
  have hpage : (((filterPage selectedLanguage selectedTask).filter
      fun e => e.filterSelect).map (·.id)).Nodup := by
    show ["language-filter", "task-filter"].Nodup
    decide
  refine ⟨hmain _ hpage, hmain, ?_, by decide⟩
  intro page hids hall
  rw [hmain page hids]
  have : (page.filter fun e =>
      e.filterSelect && decide (e.value ≠ "") && decide (e.value ≠ "all")) = [] := by
    rw [List.filter_eq_nil_iff]
    intro e he
    by_cases hf : e.filterSelect = true
    · rcases hall e he hf with h | h <;> simp [hf, h]
    · simp [hf]
  rw [this]
  rfl

/-- C8 amended, at concrete states: language `C#` and task `hello-world` give the two
pairs `language-filter=C%23` and `task-filter=hello-world` joined by `&`; a page
whose only filter has the empty value gives the empty hash. -/
theorem saveToHash_pairs_witness :
    saveToHash (filterPage "C#" "hello-world") =
      "language-filter=C%23&task-filter=hello-world" ∧
    saveToHash [⟨"language-filter", "SELECT", true, ["all", "RIFT"], ""⟩] = "" :=
  ⟨(saveToHash_pairs "C#" "hello-world").1.trans (by decide),
   (saveToHash_pairs "all" "all").2.2.1 [⟨"language-filter", "SELECT", true, ["all", "RIFT"], ""⟩]
     (by decide) (by decide)⟩

/-- C9, as stated, fails: the malformed pair `language-filter`, which has no `=` and no
value, is not ignored; read from the default state it leaves the language selector
with no selected option (the empty value) in place of `all`. -/
theorem loadFromHash_malformed_pair_not_ignored :
    URLSearchParams.parse "language-filter" = [("language-filter", "")] ∧
    loadFromHash (filterPage "all" "all") "language-filter" = filterPage "" "all" ∧
    loadFromHash (filterPage "all" "all") "language-filter" ≠ filterPage "all" "all" := by
  decide

/-- C9, amended: `loadFromHash` is total and, for every page and every hash, keeps
the elements and everything of them but the value; a pair whose key is the id of no
`SELECT` element changes nothing, so the result is that of the pairs that name a
`SELECT`; an element that no pair names keeps its value; an empty hash changes
nothing; an empty segment gives no pair, and a segment without `=` is read as its key
with the empty value. -/
theorem loadFromHash_ignores_unknown (page : List Element) (hash : String) :
    (loadFromHash page hash).map Element.shape = page.map Element.shape ∧
    (∀ p : String × String, (∀ e ∈ page, e.id = p.1 → e.tagName ≠ "SELECT") →
      applyPair page p = page) ∧
    loadFromHash page hash =
      ((URLSearchParams.parse hash).filter fun p =>
        page.any fun e => decide (e.id = p.1) && decide (e.tagName = "SELECT")).foldl
          applyPair page ∧
    (∀ (i : Nat) (e : Element), page[i]? = some e →
      (∀ p ∈ URLSearchParams.parse hash, p.1 ≠ e.id) → (loadFromHash page hash)[i]? = some e) ∧
    loadFromHash page "" = page ∧
    parsePair [] = none ∧
    (∀ segment : List Nat, segment ≠ [] → 61 ∉ segment →
      parsePair segment = some (urldecode segment, "")) := by
  refine ⟨?_, applyPair_unknown page, ?_, ?_, rfl, rfl, ?_⟩
  · unfold loadFromHash
    split
    · rfl
    · exact foldl_applyPair_shape _ _
  · unfold loadFromHash
    split
    · rename_i h
      subst h
      rfl
    · exact foldl_applyPair_filter _ _
  · intro i e he hne
    unfold loadFromHash
    split
    · exact he
    · exact foldl_applyPair_getElem? _ _ i e he hne
  · intro segment hne h61
    have hall : ∀ b ∈ segment, decide (b ≠ 61) = true := by
      intro b hb
      rw [decide_eq_true_eq]
      intro h
      exact h61 (h ▸ hb)
    have htake : segment.takeWhile (fun b => decide (b ≠ 61)) = segment :=
      List.takeWhile_eq_self_iff.mpr hall
    have hdrop : segment.dropWhile (fun b => decide (b ≠ 61)) = [] :=
      List.dropWhile_eq_nil_iff.mpr hall
    have hempty : segment.isEmpty = false := by
      cases segment with
      | nil => exact absurd rfl hne
      | cons a t => rfl
    unfold parsePair
    rw [hempty, List.span_eq_take_drop, htake, hdrop]
    rfl

/-- C9 amended, at a concrete hash: with the unknown key `theme` and an empty
segment, the task selector, which no pair names, keeps `all`, and the unknown pair
alone changes nothing. -/
theorem loadFromHash_ignores_unknown_witness :
    (loadFromHash (filterPage "all" "all") "theme=dark&&language-filter=Go")[1]? =
      (filterPage "all" "all")[1]? ∧
    applyPair (filterPage "all" "all") ("theme", "dark") = filterPage "all" "all" :=
  ⟨(loadFromHash_ignores_unknown (filterPage "all" "all")
      "theme=dark&&language-filter=Go").2.2.2.1 1 _ rfl (by decide),
   (loadFromHash_ignores_unknown (filterPage "all" "all") "").2.1 ("theme", "dark") (by decide)⟩

/-! ## Lemmas on the character metric -/

theorem utf16Length_eq (s : List Char) :
    utf16Length s = s.length + (s.filter fun c => decide (65536 ≤ c.toNat)).length := by
  induction s with
  | nil => rfl
  | cons c t ih =>
    have hcons : utf16Length (c :: t) = (if c.toNat < 65536 then 1 else 2) + utf16Length t := by
      simp [utf16Length]
    rw [hcons, ih, List.filter_cons]
    by_cases h : c.toNat < 65536
    · have h2 : decide (65536 ≤ c.toNat) = false := by simpa using h
      simp only [h, if_true, h2, List.length_cons]
      simp
      omega
    · have h2 : decide (65536 ≤ c.toNat) = true := by simpa using h
      simp only [h, if_false, h2, if_true, List.length_cons]
      omega

/-! ## Claim on the character metric -/

/-- C11, as stated, fails: for a code that is the single character U+1F600, which lies
outside the Basic Multilingual Plane, the card shows 2 characters, not 1. -/
theorem card_chars_astral_counts_two :
    (String.mk [Char.ofNat 128512]).data.length = 1 ∧
    (createComparisonCard id
      ⟨"RIFT", "hello-world", String.mk [Char.ofNat 128512], 1, 1⟩ 0).chars = 2 := by
  decide

/-- C11, amended: the character metric of a card is the `length` of the code, its
number of UTF-16 code units: the number of code points plus one more for each
character outside the Basic Multilingual Plane. It is the code-point count for every
code without such a character, and it does not read the `chars` field of the record. -/
theorem card_chars (lowerUnicode : String → String) (data : Snippet) (index : Nat) :
    (createComparisonCard lowerUnicode data index).chars =
      data.code.data.length + (data.code.data.filter fun c => decide (65536 ≤ c.toNat)).length ∧
    ((∀ c ∈ data.code.data, c.toNat < 65536) →
      (createComparisonCard lowerUnicode data index).chars = data.code.data.length) ∧
    (∀ lines chars : Nat,
      (createComparisonCard lowerUnicode { data with lines := lines, chars := chars } index).chars =
        (createComparisonCard lowerUnicode data index).chars) ∧
    (createComparisonCard lowerUnicode
      { data with code := "let name = \"World\"\nprint(name)" } index).chars = 30 := by
  have h : (createComparisonCard lowerUnicode data index).chars =
      data.code.data.length +
        (data.code.data.filter fun c => decide (65536 ≤ c.toNat)).length :=
    utf16Length_eq data.code.data
  refine ⟨h, ?_, fun _ _ => rfl, ?_⟩
  · intro hb
    rw [h]
    have : (data.code.data.filter fun c => decide (65536 ≤ c.toNat)) = [] := by
      rw [List.filter_eq_nil_iff]
      intro c hc
      have := hb c hc
      simp only [decide_eq_true_eq]
      omega
    simp [this]
  · simp only [createComparisonCard]
    decide

/-- C11 amended, at a concrete code: `a<b` has three characters, all in the Basic
Multilingual Plane, and the card shows 3. -/
theorem card_chars_witness :
    (createComparisonCard id ⟨"Python", "hello-world", "a<b", 9, 9⟩ 0).chars = 3 :=
  (card_chars id ⟨"Python", "hello-world", "a<b", 9, 9⟩ 0).2.1 (by decide)

/-! ## Lemmas on the reverse round trip -/

theorem loadFromHash_eq_foldl (page : List Element) (hash : String) :
    loadFromHash page hash = (URLSearchParams.parse hash).foldl applyPair page := by
  unfold loadFromHash
  split
  · rename_i h
    subst h
    rfl
  · rfl

/-- What `saveToHash` writes for a state of known values, read back as pairs. -/
theorem parse_saveToHash_known :
    ∀ l ∈ "all" :: languages, ∀ t ∈ "all" :: taskIds,
      URLSearchParams.parse (saveToHash (filterPage l t)) =
        (if l = "all" then [] else [("language-filter", l)]) ++
        (if t = "all" then [] else [("task-filter", t)]) := by
  decide

theorem applyPair_language :
    ∀ l ∈ languages, ∀ t ∈ "all" :: taskIds,
      applyPair (filterPage "all" t) ("language-filter", l) = filterPage l t := by
  decide

theorem applyPair_task :
    ∀ l ∈ "all" :: languages, ∀ t ∈ taskIds,
      applyPair (filterPage l "all") ("task-filter", t) = filterPage l t := by
  decide

theorem languages_ne_all : ∀ l ∈ languages, l ≠ "all" := by decide

theorem taskIds_ne_all : ∀ t ∈ taskIds, t ≠ "all" := by decide

/-- The reverse round trip on parsed pairs: distinct known keys with known values. -/
theorem reverse_round_trip_pairs (ps : List (String × String))
    (hkeys : (ps.map (·.1)).Nodup)
    (hknown : ∀ p ∈ ps, (p.1 = "language-filter" ∧ p.2 ∈ languages) ∨
      (p.1 = "task-filter" ∧ p.2 ∈ taskIds)) :
    (URLSearchParams.parse (saveToHash (ps.foldl applyPair (filterPage "all" "all")))).Perm ps := by
  have hall_l : "all" ∈ "all" :: languages := List.mem_cons_self _ _
  have hall_t : "all" ∈ "all" :: taskIds := List.mem_cons_self _ _
  match ps, hkeys, hknown with
  | [], _, _ =>
    rw [List.foldl_nil, parse_saveToHash_known "all" hall_l "all" hall_t]
    exact List.Perm.refl _
  | [(k, v)], _, hknown =>
    rcases hknown (k, v) (List.mem_singleton_self _) with ⟨hk, hv⟩ | ⟨hk, hv⟩
    · simp only at hk hv
      subst hk
      rw [List.foldl_cons, List.foldl_nil, applyPair_language v hv "all" hall_t,
        parse_saveToHash_known v (List.mem_cons_of_mem _ hv) "all" hall_t]
      simp [languages_ne_all v hv]
    · simp only at hk hv
      subst hk
      rw [List.foldl_cons, List.foldl_nil, applyPair_task "all" hall_l v hv,
        parse_saveToHash_known "all" hall_l v (List.mem_cons_of_mem _ hv)]
      simp [taskIds_ne_all v hv]
  | [(k1, v1), (k2, v2)], hkeys, hknown =>
    have hne : k1 ≠ k2 := by
      simp only [List.map_cons, List.map_nil, List.nodup_cons, List.mem_singleton] at hkeys
      exact hkeys.1
    have h1 := hknown (k1, v1) (List.mem_cons_self _ _)
    have h2 := hknown (k2, v2) (List.mem_cons_of_mem _ (List.mem_singleton_self _))
    simp only at h1 h2
    rcases h1 with ⟨hk1, hv1⟩ | ⟨hk1, hv1⟩ <;> rcases h2 with ⟨hk2, hv2⟩ | ⟨hk2, hv2⟩
    · exact absurd (hk1.trans hk2.symm) hne
    · subst hk1 hk2
      rw [List.foldl_cons, List.foldl_cons, List.foldl_nil,
        applyPair_language v1 hv1 "all" hall_t,
        applyPair_task v1 (List.mem_cons_of_mem _ hv1) v2 hv2,
        parse_saveToHash_known v1 (List.mem_cons_of_mem _ hv1) v2 (List.mem_cons_of_mem _ hv2)]
      simp [languages_ne_all v1 hv1, taskIds_ne_all v2 hv2]
    · subst hk1 hk2
      rw [List.foldl_cons, List.foldl_cons, List.foldl_nil,
        applyPair_task "all" hall_l v1 hv1,
        applyPair_language v2 hv2 v1 (List.mem_cons_of_mem _ hv1),
        parse_saveToHash_known v2 (List.mem_cons_of_mem _ hv2) v1 (List.mem_cons_of_mem _ hv1)]
      simp only [languages_ne_all v2 hv2, taskIds_ne_all v1 hv1, if_false, List.singleton_append]
      exact List.Perm.swap _ _ _
    · exact absurd (hk1.trans hk2.symm) hne
  | p1 :: p2 :: p3 :: rest, hkeys, hknown =>
    exfalso
    have h1 := hknown p1 (by simp)
    have h2 := hknown p2 (by simp)
    have h3 := hknown p3 (by simp)
    simp only [List.map_cons, List.nodup_cons, List.mem_cons, not_or] at hkeys
    obtain ⟨⟨h12, h13, _⟩, ⟨h23, _⟩, _⟩ := hkeys
    rcases h1 with ⟨a, _⟩ | ⟨a, _⟩ <;> rcases h2 with ⟨b, _⟩ | ⟨b, _⟩ <;>
      rcases h3 with ⟨c, _⟩ | ⟨c, _⟩ <;> simp_all

/-! ## Claim on the reverse round trip -/

/-- C15, as stated, fails: the well-formed string `language-filter=all` names a known
selector, but reading it from the default state and writing the state back gives the
empty string, which has no pair at all. -/
theorem codec_reverse_drops_default :
    URLSearchParams.parse "language-filter=all" = [("language-filter", "all")] ∧
    saveToHash (loadFromHash (filterPage "all" "all") "language-filter=all") = "" ∧
    URLSearchParams.parse
      (saveToHash (loadFromHash (filterPage "all" "all") "language-filter=all")) = [] ∧
    saveToHash (loadFromHash (filterPage "all" "all") "language-filter=Klingon") = "" ∧
    saveToHash (loadFromHash (filterPage "all" "all") "language-filter=Go&language-filter=PHP") =
      "language-filter=PHP" := by
  decide

/-- C15, amended: for every encoded string whose pairs have distinct keys, each the id
of a selector with a value that selector offers other than `all`, reading the string
with `loadFromHash` from the default state and writing the state with `saveToHash`
gives a string with the same pairs, up to their order and the spelling of the
percent-encoding. -/
theorem codec_reverse_round_trip (s : String)
    (hkeys : ((URLSearchParams.parse s).map (·.1)).Nodup)
    (hknown : ∀ p ∈ URLSearchParams.parse s, (p.1 = "language-filter" ∧ p.2 ∈ languages) ∨
      (p.1 = "task-filter" ∧ p.2 ∈ taskIds)) :
    (URLSearchParams.parse (saveToHash (loadFromHash (filterPage "all" "all") s))).Perm
      (URLSearchParams.parse s) := by
  rw [loadFromHash_eq_foldl]
  exact reverse_round_trip_pairs _ hkeys hknown

/-- C15 amended, at a concrete string: the task pair first and `C++` spelled with
lower-case hexadecimal digits; written back, the language pair comes first and the
digits are upper-case. -/
theorem codec_reverse_round_trip_witness :
    saveToHash (loadFromHash (filterPage "all" "all")
        "task-filter=hello-world&language-filter=C%2b%2b") =
      "language-filter=C%2B%2B&task-filter=hello-world" ∧
    (URLSearchParams.parse (saveToHash (loadFromHash (filterPage "all" "all")
        "task-filter=hello-world&language-filter=C%2b%2b"))).Perm
      (URLSearchParams.parse "task-filter=hello-world&language-filter=C%2b%2b") :=
  ⟨by decide,
   codec_reverse_round_trip "task-filter=hello-world&language-filter=C%2b%2b"
     (by decide) (by decide)⟩

/-! ## Lemmas on global replacement -/

theorem lastOr_cons (prev : Option Char) (c : Char) (l : List Char) :
    lastOr prev (c :: l) = lastOr (some c) l := rfl

theorem lastOr_eq_lastChar (prev : Option Char) (c : Char) (l : List Char) :
    lastOr prev (c :: l) = lastChar (c :: l) := by
  induction l generalizing c prev with
  | nil => rfl
  | cons b t ih =>
    rw [lastOr_cons, ih]
    simp [lastChar]

theorem lastOr_append (prev : Option Char) (a b : List Char) :
    lastOr prev (a ++ b) = lastOr (lastOr prev a) b := by
  induction a generalizing prev with
  | nil => rfl
  | cons c t ih => rw [List.cons_append, lastOr_cons, lastOr_cons, ih]

theorem replaceAll_nil (m : Option Char → List Char → Option Nat) (f : List Char → List Char)
    (prev : Option Char) (k : Nat) : replaceAll m f prev k [] = [] := by
  cases k <;> rfl

theorem replaceAll_skip_succ (m : Option Char → List Char → Option Nat)
    (f : List Char → List Char) (prev : Option Char) (k : Nat) (c : Char) (rest : List Char) :
    replaceAll m f prev (k + 1) (c :: rest) = replaceAll m f (some c) k rest := rfl

theorem replaceAll_none (m : Option Char → List Char → Option Nat) (f : List Char → List Char)
    (prev : Option Char) (c : Char) (rest : List Char) (h : m prev (c :: rest) = none) :
    replaceAll m f prev 0 (c :: rest) = c :: replaceAll m f (some c) 0 rest := by
  simp only [replaceAll, h]

theorem replaceAll_some (m : Option Char → List Char → Option Nat) (f : List Char → List Char)
    (prev : Option Char) (c : Char) (rest : List Char) (n : Nat)
    (h : m prev (c :: rest) = some (n + 1)) :
    replaceAll m f prev 0 (c :: rest) =
      f ((c :: rest).take (n + 1)) ++ replaceAll m f (some c) n rest := by
  simp only [replaceAll, h]

/-- Passing over the characters of a match. -/
theorem replaceAll_skip (m : Option Char → List Char → Option Nat) (f : List Char → List Char)
    (M R : List Char) (prev : Option Char) :
    replaceAll m f prev M.length (M ++ R) = replaceAll m f (lastOr prev M) 0 R := by
  induction M generalizing prev with
  | nil => rfl
  | cons c t ih =>
    rw [List.length_cons, List.cons_append, replaceAll_skip_succ, ih, lastOr_cons]

/-- A match of the text `M` at the head of `M ++ R` is replaced and the scan resumes
on `R`. -/
theorem replaceAll_match (m : Option Char → List Char → Option Nat) (f : List Char → List Char)
    (M R : List Char) (prev : Option Char) (hM : M ≠ [])
    (h : m prev (M ++ R) = some M.length) :
    replaceAll m f prev 0 (M ++ R) = f M ++ replaceAll m f (lastChar M) 0 R := by
  cases M with
  | nil => exact absurd rfl hM
  | cons c t =>
    rw [List.cons_append] at h ⊢
    rw [replaceAll_some m f prev c (t ++ R) t.length h, replaceAll_skip,
      ← lastOr_eq_lastChar prev c t, lastOr_cons]
    congr 2
    rw [← List.cons_append, ← List.length_cons c t, List.take_left]

/-- A text none of whose characters can start a match is copied. -/
theorem replaceAll_append_of_heads (m : Option Char → List Char → Option Nat)
    (f : List Char → List Char) (A B : List Char) (prev : Option Char)
    (h : ∀ c ∈ A, ∀ p r, m p (c :: r) = none) :
    replaceAll m f prev 0 (A ++ B) = A ++ replaceAll m f (lastOr prev A) 0 B := by
  induction A generalizing prev with
  | nil => rfl
  | cons c t ih =>
    rw [List.cons_append, replaceAll_none m f prev c (t ++ B) (h c (List.mem_cons_self c t) _ _),
      ih (some c) (fun x hx => h x (List.mem_cons_of_mem c hx)), lastOr_cons]
    rfl

theorem replaceAll_of_heads (m : Option Char → List Char → Option Nat)
    (f : List Char → List Char) (A : List Char) (prev : Option Char)
    (h : ∀ c ∈ A, ∀ p r, m p (c :: r) = none) : replaceAll m f prev 0 A = A := by
  have := replaceAll_append_of_heads m f A [] prev h
  rw [List.append_nil, replaceAll_nil, List.append_nil] at this
  exact this

/-- A pattern that does not look at the character before the position gives a
replacement that does not depend on it. -/
theorem replaceAll_prev_irrelevant (m : Option Char → List Char → Option Nat)
    (f : List Char → List Char) (hm : ∀ p q r, m p r = m q r) (l : List Char) (k : Nat)
    (p q : Option Char) : replaceAll m f p k l = replaceAll m f q k l := by
  induction l generalizing k p q with
  | nil => rw [replaceAll_nil, replaceAll_nil]
  | cons c t ih =>
    cases k with
    | succ k => rfl
    | zero =>
      cases hq : m q (c :: t) with
      | none =>
        rw [replaceAll_none m f p c t ((hm p q _).trans hq), replaceAll_none m f q c t hq]
      | some n =>
        cases n with
        | zero =>
          have hp := (hm p q (c :: t)).trans hq
          simp only [replaceAll, hp, hq]
        | succ n =>
          rw [replaceAll_some m f p c t n ((hm p q _).trans hq), replaceAll_some m f q c t n hq]

theorem replaceAll_of_not_matchesIn (m : Option Char → List Char → Option Nat)
    (f : List Char → List Char) (l : List Char) (prev : Option Char)
    (h : matchesIn m prev l = false) : replaceAll m f prev 0 l = l := by
  induction l generalizing prev with
  | nil => rfl
  | cons c t ih =>
    simp only [matchesIn, Bool.or_eq_false_iff] at h
    have h0 : m prev (c :: t) = none := by
      cases hm : m prev (c :: t) with
      | none => rfl
      | some n => rw [hm] at h; simp at h
    rw [replaceAll_none m f prev c t h0, ih (some c) h.2]

theorem matchesIn_of_split (m : Option Char → List Char → Option Nat) (l pre : List Char)
    (h : ∀ p s, l = p ++ s → m (lastChar (pre ++ p)) s = none) :
    matchesIn m (lastChar pre) l = false := by
  induction l generalizing pre with
  | nil => rfl
  | cons c t ih =>
    have h0 : m (lastChar pre) (c :: t) = none := by simpa using h [] (c :: t) rfl
    have h1 : matchesIn m (some c) t = false := by
      rw [← lastChar_append_singleton pre c]
      apply ih
      intro p s hps
      have := h (c :: p) s (by rw [hps]; rfl)
      simpa using this
    simp only [matchesIn, h0, h1]
    rfl

theorem split_of_matchesIn (m : Option Char → List Char → Option Nat) (l pre : List Char)
    (h : matchesIn m (lastChar pre) l = false) (p s : List Char) (hs : s ≠ [])
    (hl : l = p ++ s) : m (lastChar (pre ++ p)) s = none := by
  induction p generalizing l pre with
  | nil =>
    cases s with
    | nil => exact absurd rfl hs
    | cons c t =>
      subst hl
      simp only [List.nil_append, matchesIn, Bool.or_eq_false_iff] at h
      rw [List.append_nil]
      cases hm : m (lastChar pre) (c :: t) with
      | none => rfl
      | some n => rw [hm] at h; simp at h
  | cons a p ih =>
    subst hl
    simp only [List.cons_append, matchesIn, Bool.or_eq_false_iff] at h
    have := ih (p ++ s) (pre ++ [a]) (by rw [lastChar_append_singleton]; exact h.2) rfl
    simpa using this

/-! ## Lemmas on the keyword pattern and the escaper -/

theorem keywords_all_word :
    ∀ K ∈ keywords, K.data.all isWordChar = true ∧ K.data ≠ [] := by
  decide

theorem keywords_not_entity :
    ∀ K ∈ keywords, K.data ≠ "amp".data ∧ K.data ≠ "lt".data ∧ K.data ≠ "gt".data ∧
      K.data ≠ "nbsp".data := by
  decide

theorem takeWhile_eq_nil_of_head {p : Char → Bool} {l : List Char} :
    l.takeWhile p = [] ↔ (match l.head? with | some c => p c | none => false) = false := by
  cases l with
  | nil => simp
  | cons a t =>
    by_cases h : p a = true
    · simp [List.takeWhile_cons, h]
    · simp [List.takeWhile_cons, h]

theorem isWordAt_head_eq (l : List Char) :
    isWordAt l.head? = (match l.head? with | some c => isWordChar c | none => false) := by
  cases l <;> rfl

/-- The pattern `\bK\b` of a keyword matches exactly when the character before is
not a word character and the run of word characters that starts the text is `K`. -/
theorem matchKeyword_eq (K : String) (hK : K ∈ keywords) (prev : Option Char) (s : List Char) :
    matchKeyword K.data prev s =
      if isWordAt prev = false ∧ s.takeWhile isWordChar = K.data then some K.data.length
      else none := by
  obtain ⟨hh, hl⟩ := keywords_wordy K hK
  obtain ⟨hall, _⟩ := keywords_all_word K hK
  rw [List.all_eq_true] at hall
  unfold matchKeyword
  by_cases hp : K.data <+: s
  · obtain ⟨post, rfl⟩ := hp
    have hpre : K.data.isPrefixOf (K.data ++ post) = true := by
      rw [List.isPrefixOf_iff_prefix]
      exact List.prefix_append _ _
    rw [head?_append_of_isWordAt hh, List.drop_left, hpre,
      List.takeWhile_append_of_pos hall]
    have htw : (K.data ++ post.takeWhile isWordChar = K.data) ↔ isWordAt post.head? = false := by
      rw [List.append_right_eq_self, takeWhile_eq_nil_of_head, isWordAt_head_eq]
    by_cases h1 : isWordAt prev = true <;> by_cases h2 : isWordAt post.head? = true
    · simp [wordBoundary, hh, hl, h1]
    · simp [wordBoundary, hh, hl, h1]
    · have h2' : ¬ (isWordAt post.head? = false) := by simp [h2]
      simp [wordBoundary, hh, hl, h1, h2, htw]
    · simp only [Bool.not_eq_true] at h1 h2
      simp [wordBoundary, hh, hl, h1, h2, htw]
  · have hpre : K.data.isPrefixOf s = false := by
      rw [Bool.eq_false_iff]
      intro h
      exact hp (List.isPrefixOf_iff_prefix.mp h)
    have hne : s.takeWhile isWordChar ≠ K.data := by
      intro h
      exact hp (h ▸ List.takeWhile_prefix isWordChar)
    simp [hpre, hne]

/-- The keyword pattern looks at the character before only to tell whether it is a
word character. -/
theorem matchesIn_keyword_prev (K : String) (hK : K ∈ keywords) (p q : Option Char)
    (l : List Char) (h : isWordAt p = isWordAt q) :
    matchesIn (matchKeyword K.data) p l = matchesIn (matchKeyword K.data) q l := by
  cases l with
  | nil => rfl
  | cons c t => simp only [matchesIn, matchKeyword_eq K hK, h]

/-- The shapes of what the serialiser emits for one character, with the class of the
character. -/
theorem entityOf_word_cases (a : Char) :
    entityOf a = [a] ∨
    (isWordChar a = false ∧ ∃ e ∈ entityTails, entityOf a = '&' :: e.data) := by
  by_cases h1 : a = '&'
  · subst h1; right; exact ⟨by decide, "amp;", by decide, by decide⟩
  by_cases h2 : a = '<'
  · subst h2; right; exact ⟨by decide, "lt;", by decide, by decide⟩
  by_cases h3 : a = '>'
  · subst h3; right; exact ⟨by decide, "gt;", by decide, by decide⟩
  by_cases h4 : a = nbsp
  · subst h4; right; exact ⟨by decide, "nbsp;", by decide, by decide⟩
  · left; simp [entityOf, h1, h2, h3, h4]

/-- Escaping keeps the run of word characters a text starts with. -/
theorem takeWhile_word_escapeHtmlChars (l : List Char) :
    (escapeHtmlChars l).takeWhile isWordChar = l.takeWhile isWordChar := by
  induction l with
  | nil => rfl
  | cons a t ih =>
    rw [escapeHtmlChars_cons]
    rcases entityOf_word_cases a with h | ⟨hw, e, _, h⟩
    · rw [h, List.singleton_append, List.takeWhile_cons, List.takeWhile_cons, ih]
    · rw [h, List.cons_append, List.takeWhile_cons, List.takeWhile_cons, hw]
      have : isWordChar '&' = false := by decide
      simp [this]

/-- No keyword pattern matches inside an entity of the escaper. -/
theorem matchesIn_keyword_entity (K : String) (hK : K ∈ keywords) (e : String)
    (he : e ∈ entityTails) (prev : Option Char) (R : List Char) :
    matchesIn (matchKeyword K.data) prev ('&' :: e.data ++ R) =
      matchesIn (matchKeyword K.data) (some ';') R := by
  obtain ⟨k1, k2, k3, k4⟩ := keywords_not_entity K hK
  have hnil : K.data ≠ [] := (keywords_all_word K hK).2
  have hamp : isWordChar '&' = false := by decide
  have hsemi : isWordChar ';' = false := by decide
  simp only [entityTails, List.mem_cons, List.mem_singleton, List.not_mem_nil, or_false] at he
  rcases he with rfl | rfl | rfl | rfl
  · have ha : isWordChar 'a' = true := by decide
    have hm : isWordChar 'm' = true := by decide
    have hp : isWordChar 'p' = true := by decide
    have : "amp".data = ['a', 'm', 'p'] := rfl
    rw [this] at k1
    simp [matchesIn, matchKeyword_eq K hK, isWordAt, List.takeWhile_cons, hamp, hsemi, ha, hm,
      hp, Ne.symm hnil, Ne.symm k1]
  · have hl : isWordChar 'l' = true := by decide
    have ht : isWordChar 't' = true := by decide
    have : "lt".data = ['l', 't'] := rfl
    rw [this] at k2
    simp [matchesIn, matchKeyword_eq K hK, isWordAt, List.takeWhile_cons, hamp, hsemi, hl, ht,
      Ne.symm hnil, Ne.symm k2]
  · have hg : isWordChar 'g' = true := by decide
    have ht : isWordChar 't' = true := by decide
    have : "gt".data = ['g', 't'] := rfl
    rw [this] at k3
    simp [matchesIn, matchKeyword_eq K hK, isWordAt, List.takeWhile_cons, hamp, hsemi, hg, ht,
      Ne.symm hnil, Ne.symm k3]
  · have hn : isWordChar 'n' = true := by decide
    have hb : isWordChar 'b' = true := by decide
    have hs : isWordChar 's' = true := by decide
    have hp : isWordChar 'p' = true := by decide
    have : "nbsp".data = ['n', 'b', 's', 'p'] := rfl
    rw [this] at k4
    simp [matchesIn, matchKeyword_eq K hK, isWordAt, List.takeWhile_cons, hamp, hsemi, hn, hb,
      hs, hp, Ne.symm hnil, Ne.symm k4]

/-- A keyword pattern that matches nowhere in a text matches nowhere in the escaped
text. -/
theorem matchesIn_keyword_escape (K : String) (hK : K ∈ keywords) (code : List Char)
    (prev : Option Char) (h : matchesIn (matchKeyword K.data) prev code = false) :
    matchesIn (matchKeyword K.data) prev (escapeHtmlChars code) = false := by
  induction code generalizing prev with
  | nil => rfl
  | cons c t ih =>
    simp only [matchesIn, Bool.or_eq_false_iff] at h
    rw [escapeHtmlChars_cons]
    rcases entityOf_word_cases c with hc | ⟨hw, e, he, hc⟩
    · rw [hc, List.singleton_append]
      simp only [matchesIn, Bool.or_eq_false_iff]
      refine ⟨?_, ih (some c) h.2⟩
      have h1 := h.1
      rw [matchKeyword_eq K hK] at h1 ⊢
      have htw : (c :: escapeHtmlChars t).takeWhile isWordChar =
          (c :: t).takeWhile isWordChar := by
        rw [List.takeWhile_cons, List.takeWhile_cons, takeWhile_word_escapeHtmlChars]
      rw [htw]
      exact h1
    · rw [hc, matchesIn_keyword_entity K hK e he]
      rw [matchesIn_keyword_prev K hK (some ';') (some c) _ (by simp [isWordAt, hw]; decide)]
      exact ih (some c) h.2

/-- A text without whole-word keyword, in the form the claims state it. -/
theorem matchesIn_of_flanked (K : String) (hK : K ∈ keywords) (code : List Char)
    (h : ∀ pre post, code = pre ++ K.data ++ post →
      isWordAt (lastChar pre) = true ∨ isWordAt post.head? = true) :
    matchesIn (matchKeyword K.data) none code = false := by
  have := matchesIn_of_split (matchKeyword K.data) code [] (by
    intro p s hps
    by_cases hpre : K.data.isPrefixOf s = true
    · rw [List.isPrefixOf_iff_prefix] at hpre
      obtain ⟨post, rfl⟩ := hpre
      exact matchKeyword_flanked K hK p post (h p post (by rw [hps, List.append_assoc]))
    · simp [matchKeyword, hpre])
  simpa [lastChar] using this

/-- The keyword pass leaves the escaped text of a code without whole-word keyword
unchanged. -/
theorem highlightKeywords_escape (code : List Char)
    (h : ∀ K ∈ keywords, matchesIn (matchKeyword K.data) none code = false) :
    highlightKeywords (escapeHtmlChars code) = escapeHtmlChars code := by
  have step : ∀ K ∈ keywords, replaceKeyword (escapeHtmlChars code) K = escapeHtmlChars code :=
    fun K hK => replaceAll_of_not_matchesIn _ _ _ none
      (matchesIn_keyword_escape K hK code none (h K hK))
  unfold highlightKeywords
  generalize keywords = ks at step
  induction ks with
  | nil => rfl
  | cons K ks ih =>
    rw [List.foldl_cons, step K (List.mem_cons_self K ks)]
    exact ih fun K2 h2 => step K2 (List.mem_cons_of_mem K h2)

/-! ## Lemmas on the other patterns -/

theorem matchString_none_of_head (p : Option Char) (c : Char) (r : List Char)
    (h : isQuote c = false) : matchString p (c :: r) = none := by
  simp only [isQuote] at h
  simp [matchString, h]

theorem matchNumber_none_of_head (p : Option Char) (c : Char) (r : List Char)
    (h : isDigit c = false) : matchNumber p (c :: r) = none := by
  simp [matchNumber, List.takeWhile_cons, h]

theorem matchComment_none_of_head (p : Option Char) (c : Char) (r : List Char)
    (h : c ≠ '#') : matchComment p (c :: r) = none := by
  simp [matchComment, h]

theorem matchDelimiter_none_of_head (p : Option Char) (c : Char) (r : List Char)
    (h1 : c ≠ '@') (h2 : c ≠ '#') : matchDelimiter p (c :: r) = none := by
  simp [matchDelimiter, h1, h2]

theorem entityTails_chars : ∀ e ∈ entityTails, ∀ x ∈ e.data, x ∈ entityChars := by decide

/-- The characters of the entities start no match of a later pass and end no line. -/
theorem entityChars_plain :
    ∀ x ∈ entityChars, isQuote x = false ∧ isDigit x = false ∧ x ≠ '#' ∧ x ≠ '@' ∧
      x ≠ '\n' ∧ x ≠ backslash ∧ isLineTerminator x = false := by
  decide

/-- A character of the escaped text is a character of the text or of an entity. -/
theorem mem_escapeHtmlChars {x : Char} {l : List Char} (h : x ∈ escapeHtmlChars l) :
    x ∈ l ∨ x ∈ entityChars := by
  rw [escapeHtmlChars_eq_flatMap, List.mem_flatMap] at h
  obtain ⟨a, ha, hx⟩ := h
  rcases entityOf_word_cases a with h1 | ⟨_, e, he, h1⟩
  · rw [h1, List.mem_singleton] at hx
    exact Or.inl (hx ▸ ha)
  · rw [h1, List.mem_cons] at hx
    rcases hx with hx | hx
    · exact Or.inr (hx ▸ by decide)
    · exact Or.inr (entityTails_chars e he x hx)

/-- A property of the characters of a text that the characters of the entities have
too holds for the characters of the escaped text. -/
theorem forall_mem_escapeHtmlChars {P : Char → Prop} {l : List Char} (hl : ∀ x ∈ l, P x)
    (he : ∀ x ∈ entityChars, P x) : ∀ x ∈ escapeHtmlChars l, P x := by
  intro x hx
  rcases mem_escapeHtmlChars hx with h | h
  · exact hl x h
  · exact he x h

/-! ## Claim on plain text -/

/-- C16: a code without whole-word keyword (every occurrence of a keyword has a word
character right before or right after it), without quote character, digit, `#` and
`@` is returned by `highlightRift` as `escapeHtml` returns it; the empty code gives
the empty text. -/
theorem highlightRift_plain (code : String)
    (hkw : ∀ K ∈ keywords, ∀ pre post, code.data = pre ++ K.data ++ post →
      isWordAt (lastChar pre) = true ∨ isWordAt post.head? = true)
    (hplain : ∀ c ∈ code.data, c ≠ squote ∧ c ≠ dquote ∧ c ≠ bquote ∧ isDigit c = false ∧
      c ≠ '#' ∧ c ≠ '@') :
    highlightRift code = escapeHtml code ∧ highlightRift "" = "" := by
  refine ⟨?_, by decide⟩
  have hk : highlightKeywords (escapeHtmlChars code.data) = escapeHtmlChars code.data :=
    highlightKeywords_escape code.data
      (fun K hK => matchesIn_of_flanked K hK code.data (hkw K hK))
  have hall : ∀ x ∈ escapeHtmlChars code.data,
      isQuote x = false ∧ isDigit x = false ∧ x ≠ '#' ∧ x ≠ '@' := by
    apply forall_mem_escapeHtmlChars
    · intro x hx
      obtain ⟨h1, h2, h3, h4, h5, h6⟩ := hplain x hx
      exact ⟨by simp [isQuote, h1, h2, h3], h4, h5, h6⟩
    · intro x hx
      obtain ⟨h1, h2, h3, h4, _⟩ := entityChars_plain x hx
      exact ⟨h1, h2, h3, h4⟩
  have hs : highlightStrings (escapeHtmlChars code.data) = escapeHtmlChars code.data :=
    replaceAll_of_heads _ _ _ none
      (fun c hc p r => matchString_none_of_head p c r (hall c hc).1)
  have hn : highlightNumbers (escapeHtmlChars code.data) = escapeHtmlChars code.data :=
    replaceAll_of_heads _ _ _ none
      (fun c hc p r => matchNumber_none_of_head p c r (hall c hc).2.1)
  have hc : highlightComments (escapeHtmlChars code.data) = escapeHtmlChars code.data :=
    replaceAll_of_heads _ _ _ none
      (fun c hc p r => matchComment_none_of_head p c r (hall c hc).2.2.1)
  have hd : highlightDelimiters (escapeHtmlChars code.data) = escapeHtmlChars code.data :=
    replaceAll_of_heads _ _ _ none
      (fun c hc p r => matchDelimiter_none_of_head p c r (hall c hc).2.2.2 (hall c hc).2.2.1)
  simp only [highlightRift, escapeHtml, highlightRiftChars, hk, hs, hn, hc, hd]

/-- A text in which no keyword pattern matches has no whole-word keyword. -/
theorem flanked_of_matchesIn (code : List Char)
    (h : keywords.all (fun K => !matchesIn (matchKeyword K.data) none code) = true) :
    ∀ K ∈ keywords, ∀ pre post, code = pre ++ K.data ++ post →
      isWordAt (lastChar pre) = true ∨ isWordAt post.head? = true := by
  intro K hK pre post hcode
  rw [List.all_eq_true] at h
  have hm : matchesIn (matchKeyword K.data) (lastChar []) code = false := by
    simpa [lastChar] using h K hK
  have hne : K.data ++ post ≠ [] := by
    have := (keywords_all_word K hK).2
    simp [this]
  have := split_of_matchesIn _ code [] hm pre (K.data ++ post) hne
    (by rw [hcode, List.append_assoc])
  rw [List.nil_append, matchKeyword_eq K hK] at this
  have hall := (keywords_all_word K hK).1
  rw [List.all_eq_true] at hall
  rw [List.takeWhile_append_of_pos hall] at this
  by_cases h1 : isWordAt (lastChar pre) = true
  · exact Or.inl h1
  · right
    by_contra h2
    simp only [Bool.not_eq_true] at h1 h2
    have htw : post.takeWhile isWordChar = [] := by
      rw [takeWhile_eq_nil_of_head, ← isWordAt_head_eq]
      exact h2
    simp [h1, htw] at this

/-- C16, at a concrete code: `a < b & c` has no keyword, quote, digit, `#` or `@`, and
the highlighter returns the escaped text. -/
theorem highlightRift_plain_witness :
    highlightRift "a < b & c" = "a &lt; b &amp; c" :=
  ((highlightRift_plain "a < b & c" (flanked_of_matchesIn _ (by decide)) (by decide)).1).trans
    (by decide)

/-! ## Lemmas for the comment and delimiter passes -/

theorem takeWhile_append_cons_of_neg {p : Char → Bool} (A B : List Char) (x : Char)
    (hx : p x = false) : (A ++ x :: B).takeWhile p = A.takeWhile p := by
  induction A with
  | nil => simp [List.takeWhile_cons, hx]
  | cons a t ih =>
    rw [List.cons_append, List.takeWhile_cons, List.takeWhile_cons, ih]

theorem takeWhile_eq_self_append (p : Char → Bool) (A B : List Char) (x : Char)
    (hA : ∀ a ∈ A, p a = true) (hx : p x = false) : (A ++ x :: B).takeWhile p = A := by
  rw [takeWhile_append_cons_of_neg A B x hx]
  exact List.takeWhile_eq_self_iff.mpr hA

/-- A keyword pattern matches in a text cut by a non-word character exactly when it
matches in one of the two parts. -/
theorem matchesIn_keyword_append (K : String) (hK : K ∈ keywords) (A B : List Char) (x : Char)
    (hx : isWordChar x = false) (prev : Option Char) :
    matchesIn (matchKeyword K.data) prev (A ++ x :: B) =
      (matchesIn (matchKeyword K.data) prev A || matchesIn (matchKeyword K.data) (some x) B) := by
  have hnil : K.data ≠ [] := (keywords_all_word K hK).2
  induction A generalizing prev with
  | nil =>
    simp [matchesIn, matchKeyword_eq K hK, List.takeWhile_cons, hx, Ne.symm hnil]
  | cons a t ih =>
    rw [List.cons_append]
    simp only [matchesIn]
    rw [ih (some a), matchKeyword_eq K hK, matchKeyword_eq K hK, ← List.cons_append,
      takeWhile_append_cons_of_neg (a :: t) B x hx, Bool.or_assoc]

/-! ## Claim on the comment and delimiter passes -/

/-- C17, as stated, fails: a no-break space U+00A0 is none of the excluded characters,
but for `t` made of it the highlighter writes `&nbsp;` where the claim has `t`. -/
theorem highlightRift_comment_nbsp :
    highlightRiftChars ('#' :: [nbsp] ++ '\n' :: [nbsp]) =
      "<span class=\"comment\"><span class=\"delimiter\">#</span>&nbsp;</span>\n&nbsp;".data ∧
    highlightRiftChars ('#' :: [nbsp] ++ '\n' :: [nbsp]) ≠
      "<span class=\"comment\"><span class=\"delimiter\">#</span>".data ++ [nbsp] ++
        "</span>\n".data ++ [nbsp] := by
  decide

/-- C17, amended: for every text `t` without newline, `#`, `@`, quote character,
digit and whole-word keyword, `highlightRift('#' + t + '\n' + t)` is the comment
annotation of the first line, its `#` wrapped as a delimiter inside it, then the
newline and the second line, with `escapeHtml(t)` for `t`; when `t` has no `&`, `<`,
`>` and no no-break space either, that is `t` itself. A lone `@` is wrapped as a
delimiter, and so is each of two `@`. -/
theorem highlightRift_comment_line (t : List Char)
    (hkw : ∀ K ∈ keywords, ∀ pre post, t = pre ++ K.data ++ post →
      isWordAt (lastChar pre) = true ∨ isWordAt post.head? = true)
    (hplain : ∀ c ∈ t, c ≠ '\n' ∧ c ≠ '#' ∧ c ≠ '@' ∧ c ≠ squote ∧ c ≠ dquote ∧ c ≠ bquote ∧
      isDigit c = false) :
    highlightRiftChars ('#' :: t ++ '\n' :: t) =
      span "comment" (span "delimiter" ['#'] ++ escapeHtmlChars t) ++ '\n' :: escapeHtmlChars t ∧
    ((∀ c ∈ t, c ≠ '&' ∧ c ≠ '<' ∧ c ≠ '>' ∧ c ≠ nbsp) →
      highlightRiftChars ('#' :: t ++ '\n' :: t) =
        "<span class=\"comment\"><span class=\"delimiter\">#</span>".data ++ t ++
          "</span>\n".data ++ t) ∧
    highlightRift "@" = "<span class=\"delimiter\">@</span>" ∧
    highlightRift "@@" = "<span class=\"delimiter\">@</span><span class=\"delimiter\">@</span>" := by
  have hmain : highlightRiftChars ('#' :: t ++ '\n' :: t) =
      span "comment" (span "delimiter" ['#'] ++ escapeHtmlChars t) ++
        '\n' :: escapeHtmlChars t := by
    -- the escaped text
    have hesc : escapeHtmlChars ('#' :: t ++ '\n' :: t) =
        '#' :: escapeHtmlChars t ++ '\n' :: escapeHtmlChars t := by
      have h1 : entityOf '#' = ['#'] := by decide
      have h2 : entityOf '\n' = ['\n'] := by decide
      rw [List.cons_append, escapeHtmlChars_cons, escapeHtmlChars_append, escapeHtmlChars_cons,
        h1, h2]
      rfl
    -- no keyword
    have hk : highlightKeywords (escapeHtmlChars ('#' :: t ++ '\n' :: t)) =
        escapeHtmlChars ('#' :: t ++ '\n' :: t) := by
      apply highlightKeywords_escape
      intro K hK
      have ht := matchesIn_of_flanked K hK t (hkw K hK)
      have := matchesIn_keyword_append K hK [] (t ++ '\n' :: t) '#' (by decide) none
      rw [List.nil_append] at this
      rw [List.cons_append, this, matchesIn_keyword_append K hK t t '\n' (by decide),
        matchesIn_keyword_prev K hK (some '#') none t (by decide),
        matchesIn_keyword_prev K hK (some '\n') none t (by decide), ht]
      rfl
    -- the characters of the escaped text
    have hE : ∀ x ∈ escapeHtmlChars t,
        isQuote x = false ∧ isDigit x = false ∧ x ≠ '#' ∧ x ≠ '@' ∧ x ≠ '\n' := by
      apply forall_mem_escapeHtmlChars
      · intro x hx
        obtain ⟨h1, h2, h3, h4, h5, h6, h7⟩ := hplain x hx
        exact ⟨by simp [isQuote, h4, h5, h6], h7, h2, h3, h1⟩
      · intro x hx
        obtain ⟨h1, h2, h3, h4, h5, _⟩ := entityChars_plain x hx
        exact ⟨h1, h2, h3, h4, h5⟩
    have hall : ∀ x ∈ '#' :: escapeHtmlChars t ++ '\n' :: escapeHtmlChars t,
        isQuote x = false ∧ isDigit x = false := by
      intro x hx
      simp only [List.cons_append, List.mem_cons, List.mem_append] at hx
      rcases hx with rfl | hx | rfl | hx
      · decide
      · exact ⟨(hE x hx).1, (hE x hx).2.1⟩
      · decide
      · exact ⟨(hE x hx).1, (hE x hx).2.1⟩
    have hs : highlightStrings ('#' :: escapeHtmlChars t ++ '\n' :: escapeHtmlChars t) =
        '#' :: escapeHtmlChars t ++ '\n' :: escapeHtmlChars t :=
      replaceAll_of_heads _ _ _ none
        (fun c hc p r => matchString_none_of_head p c r (hall c hc).1)
    have hn : highlightNumbers ('#' :: escapeHtmlChars t ++ '\n' :: escapeHtmlChars t) =
        '#' :: escapeHtmlChars t ++ '\n' :: escapeHtmlChars t :=
      replaceAll_of_heads _ _ _ none
        (fun c hc p r => matchNumber_none_of_head p c r (hall c hc).2)
    -- the comment pass
    have hc : highlightComments ('#' :: escapeHtmlChars t ++ '\n' :: escapeHtmlChars t) =
        span "comment" ('#' :: escapeHtmlChars t) ++ '\n' :: escapeHtmlChars t := by
      unfold highlightComments
      have hm : matchComment none (('#' :: escapeHtmlChars t) ++ '\n' :: escapeHtmlChars t) =
          some ('#' :: escapeHtmlChars t).length := by
        have htw := takeWhile_eq_self_append (fun d => d != '\n') (escapeHtmlChars t)
          (escapeHtmlChars t) '\n' (fun a ha => by simpa using (hE a ha).2.2.2.2) (by decide)
        simp only [List.cons_append, matchComment, if_true, htw, List.length_cons]
        rw [Nat.add_comm]
      have hrest : ∀ c ∈ '\n' :: escapeHtmlChars t, ∀ p r, matchComment p (c :: r) = none := by
        intro c hc p r
        apply matchComment_none_of_head
        rcases List.mem_cons.mp hc with rfl | hc
        · decide
        · exact (hE c hc).2.2.1
      rw [replaceAll_match _ _ _ _ none (List.cons_ne_nil _ _) hm,
        replaceAll_of_heads _ _ _ _ hrest]
    -- the delimiter pass
    have hd : highlightDelimiters
        (span "comment" ('#' :: escapeHtmlChars t) ++ '\n' :: escapeHtmlChars t) =
        span "comment" (span "delimiter" ['#'] ++ escapeHtmlChars t) ++
          '\n' :: escapeHtmlChars t := by
      unfold highlightDelimiters
      have hshape : span "comment" ('#' :: escapeHtmlChars t) ++ '\n' :: escapeHtmlChars t =
          "<span class=\"comment\">".data ++
            (['#'] ++ (escapeHtmlChars t ++ "</span>".data ++ '\n' :: escapeHtmlChars t)) := by
        simp [span]
      have hopen : ∀ c ∈ "<span class=\"comment\">".data, ∀ p r,
          matchDelimiter p (c :: r) = none := by
        have : ∀ x ∈ "<span class=\"comment\">".data, x ≠ '@' ∧ x ≠ '#' := by decide
        exact fun c hc p r => matchDelimiter_none_of_head p c r (this c hc).1 (this c hc).2
      have hrest : ∀ c ∈ escapeHtmlChars t ++ "</span>".data ++ '\n' :: escapeHtmlChars t,
          ∀ p r, matchDelimiter p (c :: r) = none := by
        intro c hc p r
        rcases List.mem_append.mp hc with hc | hc
        · rcases List.mem_append.mp hc with hc | hc
          · exact matchDelimiter_none_of_head p c r (hE c hc).2.2.2.1 (hE c hc).2.2.1
          · have : ∀ x ∈ "</span>".data, x ≠ '@' ∧ x ≠ '#' := by decide
            exact matchDelimiter_none_of_head p c r (this c hc).1 (this c hc).2
        · rcases List.mem_cons.mp hc with rfl | hc
          · exact matchDelimiter_none_of_head p _ r (by decide) (by decide)
          · exact matchDelimiter_none_of_head p c r (hE c hc).2.2.2.1 (hE c hc).2.2.1
      have hm : ∀ p R, matchDelimiter p (['#'] ++ R) = some ['#'].length := fun _ _ => rfl
      rw [hshape, replaceAll_append_of_heads _ _ _ _ none hopen,
        replaceAll_match _ _ ['#'] _ _ (List.cons_ne_nil _ _) (hm _ _),
        replaceAll_of_heads _ _ _ _ hrest]
      simp [span]
    unfold highlightRiftChars
    rw [hk, hesc, hs, hn, hc, hd]
  refine ⟨hmain, ?_, by decide, by decide⟩
  intro hraw
  have hid : escapeHtmlChars t = t := by
    rw [escapeHtmlChars_eq_flatMap]
    clear hmain hkw hplain
    induction t with
    | nil => rfl
    | cons a l ih =>
      obtain ⟨h1, h2, h3, h4⟩ := hraw a (List.mem_cons_self a l)
      rw [List.flatMap_cons, ih (fun c hc => hraw c (List.mem_cons_of_mem a hc))]
      simp [entityOf, h1, h2, h3, h4]
  rw [hmain, hid]
  simp [span]

/-- C17 amended, at a concrete line: the comment `# hi` followed by the line ` hi`. -/
theorem highlightRift_comment_line_witness :
    highlightRiftChars "# hi\n hi".data =
      "<span class=\"comment\"><span class=\"delimiter\">#</span> hi</span>\n hi".data :=
  ((highlightRift_comment_line " hi".data (flanked_of_matchesIn _ (by decide)) (by decide)).2.1
    (by decide)).trans (by decide)

/-! ## A block that a pass leaves in place -/

theorem infix_span (kind : String) (M : List Char) : M <:+: span kind M :=
  ⟨"<span class=\"".data ++ kind.data ++ "\">".data, "</span>".data, by simp [span]⟩

/-- A pass keeps a block `S` of the text as a block of its output when no match starts
inside `S` and every match that starts before `S` either ends before `S` or covers
all of it. -/
theorem replaceAll_infix (m : Option Char → List Char → Option Nat) (kind : String)
    (S : List Char) (hN1 : ∀ c ∈ S, ∀ p r, m p (c :: r) = none)
    (hN2 : ∀ p A R n, A ≠ [] → m p (A ++ S ++ R) = some n →
      n ≤ A.length ∨ A.length + S.length ≤ n) :
    ∀ (k : Nat) (A R : List Char) (prev : Option Char), A.length ≤ k →
      S <:+: replaceAll m (span kind) prev 0 (A ++ S ++ R) := by
  intro k
  induction k with
  | zero =>
    intro A R prev hA
    have : A = [] := List.length_eq_zero.mp (Nat.le_zero.mp hA)
    subst this
    rw [List.nil_append, replaceAll_append_of_heads _ _ _ _ _ hN1]
    exact (List.prefix_append _ _).isInfix
  | succ k ih =>
    intro A R prev hA
    cases A with
    | nil =>
      rw [List.nil_append, replaceAll_append_of_heads _ _ _ _ _ hN1]
      exact (List.prefix_append _ _).isInfix
    | cons c A1 =>
      have hA1 : A1.length ≤ k := by simpa using hA
      have hcons : (c :: A1) ++ S ++ R = c :: (A1 ++ S ++ R) := by simp
      have htail : S <:+: replaceAll m (span kind) (some c) 0 (A1 ++ S ++ R) :=
        ih A1 R (some c) hA1
      cases hm : m prev ((c :: A1) ++ S ++ R) with
      | none =>
        rw [hcons] at hm ⊢
        rw [replaceAll_none _ _ _ _ _ hm]
        exact htail.trans (List.suffix_cons _ _).isInfix
      | some n =>
        cases n with
        | zero =>
          rw [hcons] at hm ⊢
          have : replaceAll m (span kind) prev 0 (c :: (A1 ++ S ++ R)) =
              c :: replaceAll m (span kind) (some c) 0 (A1 ++ S ++ R) := by
            simp only [replaceAll, hm]
          rw [this]
          exact htail.trans (List.suffix_cons _ _).isInfix
        | succ n =>
          have hb := hN2 prev (c :: A1) R (n + 1) (List.cons_ne_nil _ _) hm
          rw [hcons] at hm ⊢
          rw [replaceAll_some _ _ _ _ _ n hm]
          rcases hb with hb | hb
          · -- the match ends before the block
            have hn : n ≤ A1.length := by simpa using hb
            have hsplit : A1 ++ S ++ R = A1.take n ++ (A1.drop n ++ S ++ R) := by
              rw [← List.append_assoc, ← List.append_assoc, List.take_append_drop]
            have hlen : (A1.take n).length = n := by simp [hn]
            have hskip := replaceAll_skip m (span kind) (A1.take n) (A1.drop n ++ S ++ R) (some c)
            rw [hlen, ← hsplit] at hskip
            rw [hskip]
            have := ih (A1.drop n) R (lastOr (some c) (A1.take n)) (by
              rw [List.length_drop]; omega)
            exact this.trans (List.suffix_append _ _).isInfix
          · -- the match covers the block
            have hlen : ((c :: A1) ++ S).length ≤ n + 1 := by
              rw [List.length_append]
              exact hb
            have htake : (c :: A1) ++ S <+: (c :: (A1 ++ S ++ R)).take (n + 1) := by
              rw [← hcons, List.prefix_take_iff]
              exact ⟨List.prefix_append _ _, hlen⟩
            have h1 : S <:+: (c :: (A1 ++ S ++ R)).take (n + 1) :=
              (List.suffix_append _ _).isInfix.trans htake.isInfix
            exact (h1.trans (infix_span kind _)).trans (List.prefix_append _ _).isInfix

/-- The form of `replaceAll_infix` on a text that holds the block. -/
theorem infix_replaceAll (m : Option Char → List Char → Option Nat) (kind : String)
    (S T : List Char) (hN1 : ∀ c ∈ S, ∀ p r, m p (c :: r) = none)
    (hN2 : ∀ p A R n, A ≠ [] → m p (A ++ S ++ R) = some n →
      n ≤ A.length ∨ A.length + S.length ≤ n)
    (h : S <:+: T) : S <:+: replaceAll m (span kind) none 0 T := by
  obtain ⟨A, R, rfl⟩ := h
  exact replaceAll_infix m kind S hN1 hN2 A.length A R none (Nat.le_refl _)

/-! ## Where the matches of the later passes can lie -/

/-- A match of the number pattern does not reach a character that is neither a digit
nor a dot. -/
theorem matchNumber_le (p : Option Char) (A Z : List Char) (y : Char)
    (hy1 : isDigit y = false) (hy2 : y ≠ '.') (n : Nat)
    (h : matchNumber p (A ++ y :: Z) = some n) : n ≤ A.length := by
  have hds : (A ++ y :: Z).takeWhile isDigit = A.takeWhile isDigit :=
    takeWhile_append_cons_of_neg A Z y hy1
  have hle : (A.takeWhile isDigit).length ≤ A.length :=
    (List.takeWhile_prefix isDigit).length_le
  have hdrop : (A ++ y :: Z).drop (A.takeWhile isDigit).length =
      A.drop (A.takeWhile isDigit).length ++ y :: Z := List.drop_append_of_le_length hle
  have hA : A.length = (A.takeWhile isDigit).length +
      (A.drop (A.takeWhile isDigit).length).length := by
    rw [List.length_drop]; omega
  unfold matchNumber at h
  simp only [hds, hdrop] at h
  split at h
  · split at h
    · exact absurd h (by simp)
    · cases hA2 : A.drop (A.takeWhile isDigit).length with
      | nil =>
        rw [hA2] at h
        simp only [List.nil_append, hy2, decide_False, Bool.false_and, Bool.false_eq_true,
          if_false] at h
        split at h
        · exact absurd h (by simp)
        · simp only [Option.some.injEq] at h
          omega
      | cons c A3 =>
        rw [hA2] at h hA
        simp only [List.cons_append, takeWhile_append_cons_of_neg A3 Z y hy1] at h
        have hfs : (A3.takeWhile isDigit).length ≤ A3.length :=
          (List.takeWhile_prefix isDigit).length_le
        simp only [List.length_cons] at hA
        split at h
        · split at h
          · simp only [Option.some.injEq] at h
            omega
          · simp only [Option.some.injEq] at h
            omega
        · split at h
          · exact absurd h (by simp)
          · simp only [Option.some.injEq] at h
            omega
  · exact absurd h (by simp)

/-- A match of the comment pattern that starts before a block without newline ends
before the block or covers it. -/
theorem matchComment_span (p : Option Char) (A S R : List Char) (n : Nat) (hA : A ≠ [])
    (hS : ∀ c ∈ S, c ≠ '\n') (h : matchComment p (A ++ S ++ R) = some n) :
    n ≤ A.length ∨ A.length + S.length ≤ n := by
  cases A with
  | nil => exact absurd rfl hA
  | cons c A1 =>
    simp only [List.cons_append, matchComment] at h
    split at h
    · simp only [Option.some.injEq] at h
      rw [List.append_assoc, List.takeWhile_append] at h
      split at h
      · right
        have hS2 : ∀ a ∈ S, (fun d : Char => d != '\n') a = true := by
          intro a ha
          simpa using hS a ha
        rw [List.takeWhile_append_of_pos hS2] at h
        simp only [List.length_append, List.length_cons] at h ⊢
        omega
      · left
        have := (List.takeWhile_prefix (fun d : Char => d != '\n') (l := A1)).length_le
        simp only [List.length_cons]
        omega
    · exact absurd h (by simp)

theorem matchDelimiter_le (p : Option Char) (A T : List Char) (n : Nat) (hA : A ≠ [])
    (h : matchDelimiter p (A ++ T) = some n) : n ≤ A.length := by
  cases A with
  | nil => exact absurd rfl hA
  | cons c A1 =>
    simp only [List.cons_append, matchDelimiter] at h
    split at h
    · simp only [Option.some.injEq] at h
      simp only [List.length_cons]
      omega
    · exact absurd h (by simp)

/-- The later passes keep a block that holds no digit, `#`, `@` or newline and starts
with a character that is neither a digit nor a dot. -/
theorem later_passes_keep (S T : List Char) (y : Char) (S1 : List Char) (hS : S = y :: S1)
    (hy1 : isDigit y = false) (hy2 : y ≠ '.')
    (hplain : ∀ c ∈ S, isDigit c = false ∧ c ≠ '#' ∧ c ≠ '@' ∧ c ≠ '\n')
    (h : S <:+: T) :
    S <:+: highlightDelimiters (highlightComments (highlightNumbers T)) := by
  have h1 : S <:+: highlightNumbers T := by
    apply infix_replaceAll _ _ _ _ (fun c hc p r => matchNumber_none_of_head p c r (hplain c hc).1)
      _ h
    intro p A R n _ hm
    left
    rw [hS, List.append_assoc, List.cons_append] at hm
    exact matchNumber_le p A _ y hy1 hy2 n hm
  have h2 : S <:+: highlightComments (highlightNumbers T) := by
    apply infix_replaceAll _ _ _ _
      (fun c hc p r => matchComment_none_of_head p c r (hplain c hc).2.1) _ h1
    intro p A R n hA hm
    exact matchComment_span p A S R n hA (fun c hc => (hplain c hc).2.2.2) hm
  apply infix_replaceAll _ _ _ _
    (fun c hc p r => matchDelimiter_none_of_head p c r (hplain c hc).2.2.1 (hplain c hc).2.1) _ h2
  intro p A R n hA hm
  left
  rw [List.append_assoc] at hm
  exact matchDelimiter_le p A _ n hA hm

/-! ## Lemmas on the string pass -/

theorem isQuote_cases {q : Char} (h : isQuote q = true) : q = squote ∨ q = dquote ∨ q = bquote := by
  simpa [isQuote, or_assoc] using h

theorem entityOf_quote {q : Char} (h : isQuote q = true) : entityOf q = [q] := by
  rcases isQuote_cases h with rfl | rfl | rfl <;> decide

/-- What a quote character is not. -/
theorem quote_plain {q : Char} (h : isQuote q = true) :
    isDigit q = false ∧ q ≠ '#' ∧ q ≠ '@' ∧ q ≠ '\n' ∧ isWordChar q = false := by
  rcases isQuote_cases h with rfl | rfl | rfl <;> decide

theorem escapeHtmlChars_eq_self (t : List Char)
    (h : ∀ c ∈ t, c ≠ '&' ∧ c ≠ '<' ∧ c ≠ '>' ∧ c ≠ nbsp) : escapeHtmlChars t = t := by
  rw [escapeHtmlChars_eq_flatMap]
  induction t with
  | nil => rfl
  | cons a l ih =>
    obtain ⟨h1, h2, h3, h4⟩ := h a (List.mem_cons_self a l)
    rw [List.flatMap_cons, ih (fun c hc => h c (List.mem_cons_of_mem a hc))]
    simp [entityOf, h1, h2, h3, h4]

/-- The body of a literal without quote of its kind, backslash and line terminator is
read up to the closing quote. -/
theorem stringBody_close (q : Char) (B Y : List Char)
    (hB : ∀ c ∈ B, c ≠ q ∧ c ≠ backslash ∧ isLineTerminator c = false) :
    stringBody q (B ++ q :: Y) = some (B.length + 1) := by
  induction B with
  | nil =>
    rw [List.nil_append, stringBody.eq_def]
    simp
  | cons c t ih =>
    obtain ⟨h1, h2, h3⟩ := hB c (List.mem_cons_self c t)
    rw [List.cons_append, stringBody.eq_def]
    simp only [if_neg h1, if_neg h2, h3, ih (fun x hx => hB x (List.mem_cons_of_mem c hx))]
    rfl

theorem matchString_prev (p q : Option Char) (r : List Char) :
    matchString p r = matchString q r := rfl

/-- The string pass on a text whose first quote opens a literal that closes. -/
theorem highlightStrings_literal (X B Y : List Char) (q : Char) (hq : isQuote q = true)
    (hX : ∀ c ∈ X, isQuote c = false)
    (hB : ∀ c ∈ B, c ≠ q ∧ c ≠ backslash ∧ isLineTerminator c = false) :
    highlightStrings (X ++ q :: B ++ q :: Y) =
      X ++ span "string" (q :: B ++ [q]) ++ highlightStrings Y := by
  unfold highlightStrings
  have hshape : X ++ q :: B ++ q :: Y = X ++ ((q :: B ++ [q]) ++ Y) := by simp
  have hm : ∀ p, matchString p ((q :: B ++ [q]) ++ Y) = some (q :: B ++ [q]).length := by
    intro p
    have hb : (q :: B ++ [q]) ++ Y = q :: (B ++ q :: Y) := by simp
    rw [hb]
    simp only [isQuote] at hq
    simp only [matchString, hq, if_true, stringBody_close q B Y hB]
    simp
  rw [hshape, replaceAll_append_of_heads _ _ _ _ none
      (fun c hc p r => matchString_none_of_head p c r (hX c hc)),
    replaceAll_match _ _ _ _ _ (by simp) (hm _),
    replaceAll_prev_irrelevant matchString _ matchString_prev Y 0 _ none]
  simp

/-! ## Claim on string literals -/

/-- C12, as stated, fails: for the literal `"a<b"` the span holds `&lt;` and not `<`;
a literal with a carriage return inside is not annotated at all; and in
`" x "World"` the text `"World"` is not wrapped, its opening quote closing the
literal before it. -/
theorem highlightRift_string_not_verbatim :
    highlightRift "\"a<b\"" = "<span class=\"string\">\"a&lt;b\"</span>" ∧
    ¬ ("<span class=\"string\">\"a<b\"</span>".data <:+: (highlightRift "\"a<b\"").data) ∧
    highlightRift "\"a\rb\"" = "\"a\rb\"" ∧
    highlightRift "\" x \"World\"" = "<span class=\"string\">\" x \"</span>World\"" ∧
    ¬ ("<span class=\"string\">\"World\"</span>".data <:+:
        (highlightRift "\" x \"World\"").data) := by
  decide

/-- C12, amended: in a source text without whole-word keyword that reads `pre`, then a
literal `q s q`, then `post`, where `q` is a quote character, `pre` holds no quote
character and `s` holds no quote character, backslash, line terminator, digit, `#`
or `@`, the output of `highlightRift` contains the string annotation of the literal
with both delimiters inside it, its text being `escapeHtml(s)`, which is `s` when
`s` has no `&`, `<`, `>` and no-break space; for `name = "World"` the output is
`name = <span class="string">"World"</span>`. -/
theorem highlightRift_string_literal (pre s post : List Char) (q : Char)
    (hq : isQuote q = true)
    (hkw : ∀ K ∈ keywords, ∀ a b, pre ++ q :: s ++ q :: post = a ++ K.data ++ b →
      isWordAt (lastChar a) = true ∨ isWordAt b.head? = true)
    (hpre : ∀ c ∈ pre, isQuote c = false)
    (hs : ∀ c ∈ s, isQuote c = false ∧ c ≠ backslash ∧ isLineTerminator c = false ∧
      isDigit c = false ∧ c ≠ '#' ∧ c ≠ '@') :
    span "string" (q :: escapeHtmlChars s ++ [q]) <:+:
      highlightRiftChars (pre ++ q :: s ++ q :: post) ∧
    ((∀ c ∈ s, c ≠ '&' ∧ c ≠ '<' ∧ c ≠ '>' ∧ c ≠ nbsp) →
      span "string" (q :: s ++ [q]) <:+: highlightRiftChars (pre ++ q :: s ++ q :: post)) ∧
    (∀ lowerUnicode : String → String,
      highlightCode lowerUnicode "name = \"World\"" "RIFT" =
        "name = <span class=\"string\">\"World\"</span>") := by
  have hmain : span "string" (q :: escapeHtmlChars s ++ [q]) <:+:
      highlightRiftChars (pre ++ q :: s ++ q :: post) := by
    have hesc : escapeHtmlChars (pre ++ q :: s ++ q :: post) =
        escapeHtmlChars pre ++ q :: escapeHtmlChars s ++ q :: escapeHtmlChars post := by
      have h1 : pre ++ q :: s ++ q :: post = pre ++ ([q] ++ (s ++ ([q] ++ post))) := by simp
      rw [h1]
      simp only [escapeHtmlChars_append, escapeHtmlChars_single, entityOf_quote hq]
      simp
    have hk : highlightKeywords (escapeHtmlChars (pre ++ q :: s ++ q :: post)) =
        escapeHtmlChars (pre ++ q :: s ++ q :: post) :=
      highlightKeywords_escape _ (fun K hK => matchesIn_of_flanked K hK _ (hkw K hK))
    have hEpre : ∀ c ∈ escapeHtmlChars pre, isQuote c = false :=
      forall_mem_escapeHtmlChars hpre (fun x hx => (entityChars_plain x hx).1)
    have hEs : ∀ c ∈ escapeHtmlChars s, isQuote c = false ∧ c ≠ backslash ∧
        isLineTerminator c = false ∧ isDigit c = false ∧ c ≠ '#' ∧ c ≠ '@' ∧ c ≠ '\n' := by
      apply forall_mem_escapeHtmlChars
      · intro x hx
        obtain ⟨h1, h2, h3, h4, h5, h6⟩ := hs x hx
        refine ⟨h1, h2, h3, h4, h5, h6, ?_⟩
        intro hn
        rw [hn] at h3
        exact absurd h3 (by decide)
      · intro x hx
        obtain ⟨h1, h2, h3, h4, h5, h6, h7⟩ := entityChars_plain x hx
        exact ⟨h1, h6, h7, h2, h3, h4, h5⟩
    have hbody : ∀ c ∈ escapeHtmlChars s, c ≠ q ∧ c ≠ backslash ∧
        isLineTerminator c = false := by
      intro c hc
      obtain ⟨h1, h2, h3, _⟩ := hEs c hc
      refine ⟨?_, h2, h3⟩
      intro hcq
      rw [hcq, hq] at h1
      exact absurd h1 (by decide)
    have hstr := highlightStrings_literal (escapeHtmlChars pre) (escapeHtmlChars s)
      (escapeHtmlChars post) q hq hEpre hbody
    have hin : span "string" (q :: escapeHtmlChars s ++ [q]) <:+:
        highlightStrings (highlightKeywords (escapeHtmlChars (pre ++ q :: s ++ q :: post))) := by
      rw [hk, hesc, hstr]
      exact ⟨escapeHtmlChars pre, highlightStrings (escapeHtmlChars post), rfl⟩
    have hS : span "string" (q :: escapeHtmlChars s ++ [q]) =
        '<' :: ("span class=\"string\">".data ++
          (q :: (escapeHtmlChars s ++ (q :: "</span>".data)))) := by
      simp [span]
    unfold highlightRiftChars
    refine later_passes_keep _ _ '<' _ hS (by decide) (by decide) ?_ hin
    intro c hc
    obtain ⟨hq1, hq2, hq3, hq4, _⟩ := quote_plain hq
    have hopen : ∀ x ∈ "<span class=\"string\">".data,
        isDigit x = false ∧ x ≠ '#' ∧ x ≠ '@' ∧ x ≠ '\n' := by decide
    have hclose : ∀ x ∈ "</span>".data,
        isDigit x = false ∧ x ≠ '#' ∧ x ≠ '@' ∧ x ≠ '\n' := by decide
    have hsp : span "string" (q :: escapeHtmlChars s ++ [q]) =
        "<span class=\"string\">".data ++ (q :: (escapeHtmlChars s ++ (q :: "</span>".data))) := by
      simp [span]
    rw [hsp] at hc
    rcases List.mem_append.mp hc with hc | hc
    · exact hopen c hc
    · rcases List.mem_cons.mp hc with rfl | hc
      · exact ⟨hq1, hq2, hq3, hq4⟩
      · rcases List.mem_append.mp hc with hc | hc
        · obtain ⟨_, _, _, h4, h5, h6, h7⟩ := hEs c hc
          exact ⟨h4, h5, h6, h7⟩
        · rcases List.mem_cons.mp hc with rfl | hc
          · exact ⟨hq1, hq2, hq3, hq4⟩
          · exact hclose c hc
  refine ⟨hmain, ?_, ?_⟩
  · intro hraw
    have h2 := hmain
    rw [escapeHtmlChars_eq_self s hraw] at h2
    exact h2
  · intro lowerUnicode
    have h : highlightCode lowerUnicode "name = \"World\"" "RIFT" =
        highlightRift "name = \"World\"" := by rfl
    rw [h]
    decide

/-- C12 amended, at a concrete source: in `say('hi') # 1` the literal `'hi'` is wrapped,
quotes included, inside the comment that follows it. -/
theorem highlightRift_string_literal_witness :
    "<span class=\"string\">'hi'</span>".data <:+: highlightRiftChars "say('hi') # 1".data :=
  (highlightRift_string_literal "say(".data "hi".data ") # 1".data squote (by decide)
    (flanked_of_matchesIn _ (by decide)) (by decide) (by decide)).2.1 (by decide)

/-! ## Lemmas on the number pass -/

theorem isWordChar_of_isDigit {c : Char} (h : isDigit c = true) : isWordChar c = true := by
  simp [isWordChar, h]

theorem takeWhile_isDigit_of_head (B : List Char) (h : isWordAt B.head? = false) :
    B.takeWhile isDigit = [] := by
  cases B with
  | nil => rfl
  | cons b t =>
    have hb : isDigit b = false := by
      cases hd : isDigit b with
      | false => rfl
      | true =>
        have := isWordChar_of_isDigit hd
        simp [isWordAt, this] at h
    simp [List.takeWhile_cons, hb]

/-- The number pattern matches an integer token between non-word characters, when no
fraction follows it. -/
theorem matchNumber_int (p : Option Char) (ds B : List Char) (hds : ds ≠ [])
    (hd : ∀ c ∈ ds, isDigit c = true) (hp : isWordAt p = false)
    (hB : isWordAt B.head? = false) (hBd : ∀ c ∈ B, isDigit c = false) :
    matchNumber p (ds ++ B) = some ds.length := by
  cases ds with
  | nil => exact absurd rfl hds
  | cons d ds1 =>
    have hw : isWordChar d = true := isWordChar_of_isDigit (hd d (List.mem_cons_self d ds1))
    have htw : ((d :: ds1) ++ B).takeWhile isDigit = d :: ds1 := by
      rw [List.takeWhile_append_of_pos hd, takeWhile_isDigit_of_head B hB, List.append_nil]
    unfold matchNumber
    simp only [htw, List.drop_left]
    have hb : wordBoundary p ((d :: ds1) ++ B).head? = true := by
      have hh : ((d :: ds1) ++ B).head? = some d := rfl
      rw [hh, wordBoundary, hp]
      show (false != isWordChar d) = true
      rw [hw]
      rfl
    rw [if_pos hb]
    cases B with
    | nil => simp
    | cons b t =>
      have hbw : isWordChar b = false := by simpa [isWordAt] using hB
      have hfs : t.takeWhile isDigit = [] := by
        cases t with
        | nil => rfl
        | cons x t2 =>
          have := hBd x (by simp)
          simp [List.takeWhile_cons, this]
      simp [hfs, hbw]

/-- The number pattern matches a decimal token between non-word characters. -/
theorem matchNumber_dec (p : Option Char) (ds fs B : List Char) (hds : ds ≠ [])
    (hfs : fs ≠ []) (hd : ∀ c ∈ ds, isDigit c = true) (hf : ∀ c ∈ fs, isDigit c = true)
    (hp : isWordAt p = false) (hB : isWordAt B.head? = false) :
    matchNumber p ((ds ++ '.' :: fs) ++ B) = some (ds ++ '.' :: fs).length := by
  cases ds with
  | nil => exact absurd rfl hds
  | cons d ds1 =>
    have hw : isWordChar d = true := isWordChar_of_isDigit (hd d (List.mem_cons_self d ds1))
    have hdot : isDigit '.' = false := by decide
    have hshape : ((d :: ds1) ++ '.' :: fs) ++ B = (d :: ds1) ++ '.' :: (fs ++ B) := by simp
    have htw : ((d :: ds1) ++ '.' :: (fs ++ B)).takeWhile isDigit = d :: ds1 :=
      takeWhile_eq_self_append isDigit (d :: ds1) (fs ++ B) '.' hd hdot
    have htf : (fs ++ B).takeWhile isDigit = fs := by
      rw [List.takeWhile_append_of_pos hf, takeWhile_isDigit_of_head B hB, List.append_nil]
    have hb : wordBoundary p ((d :: ds1) ++ '.' :: (fs ++ B)).head? = true := by
      have hh : ((d :: ds1) ++ '.' :: (fs ++ B)).head? = some d := rfl
      rw [hh, wordBoundary, hp]
      show (false != isWordChar d) = true
      rw [hw]
      rfl
    have hne : fs.isEmpty = false := by
      cases fs with
      | nil => exact absurd rfl hfs
      | cons _ _ => rfl
    rw [hshape]
    unfold matchNumber
    simp only [htw, List.drop_left, htf, hne, hB]
    rw [if_pos hb]
    simp
    omega

/-- The number pattern at a numeric token between non-word characters, the text after
it holding no digit. -/
theorem matchNumber_token (p : Option Char) (ds fs B : List Char) (hds : ds ≠ [])
    (hd : ∀ c ∈ ds, isDigit c = true) (hf : ∀ c ∈ fs, isDigit c = true)
    (hp : isWordAt p = false) (hB : isWordAt B.head? = false)
    (hBd : ∀ c ∈ B, isDigit c = false) :
    matchNumber p (numberToken ds fs ++ B) = some (numberToken ds fs).length := by
  cases fs with
  | nil => exact matchNumber_int p ds B hds hd hp hB hBd
  | cons f fs1 => exact matchNumber_dec p ds (f :: fs1) B hds (List.cons_ne_nil _ _) hd hf hp hB

theorem numberToken_ne_nil (ds fs : List Char) (hds : ds ≠ []) : numberToken ds fs ≠ [] := by
  cases fs with
  | nil => exact hds
  | cons f fs1 => simp [numberToken]

/-- The characters of a numeric token are digits and the dot. -/
theorem numberToken_chars (ds fs : List Char) (hd : ∀ c ∈ ds, isDigit c = true)
    (hf : ∀ c ∈ fs, isDigit c = true) :
    ∀ c ∈ numberToken ds fs, (isDigit c = true ∨ c = '.') := by
  intro c hc
  cases fs with
  | nil => exact Or.inl (hd c hc)
  | cons f fs1 =>
    simp only [numberToken, List.mem_append, List.mem_cons] at hc
    rcases hc with hc | rfl | rfl | hc
    · exact Or.inl (hd c hc)
    · exact Or.inr rfl
    · exact Or.inl (hf c (List.mem_cons_self _ _))
    · exact Or.inl (hf c (List.mem_cons_of_mem _ hc))

/-- A digit or a dot is no quote, `#`, `@`, backslash or line terminator, and the
escaper leaves it as it is. -/
theorem digit_or_dot_plain {c : Char} (h : isDigit c = true ∨ c = '.') :
    isQuote c = false ∧ c ≠ '#' ∧ c ≠ '@' ∧ c ≠ backslash ∧ isLineTerminator c = false ∧
      entityOf c = [c] := by
  rcases h with h | rfl
  · have h1 : 48 ≤ c.toNat ∧ c.toNat ≤ 57 := by simpa [isDigit] using h
    have hne : ∀ d : Char, (d.toNat < 48 ∨ 57 < d.toNat) → c ≠ d := by
      intro d hd hcd
      rw [hcd] at h1
      omega
    have e1 := hne squote (by decide)
    have e2 := hne dquote (by decide)
    have e3 := hne bquote (by decide)
    have e4 := hne '&' (by decide)
    have e5 := hne '<' (by decide)
    have e6 := hne '>' (by decide)
    have e7 := hne nbsp (by decide)
    refine ⟨by simp [isQuote, e1, e2, e3], hne '#' (by decide), hne '@' (by decide),
      hne backslash (by decide), ?_, by simp [entityOf, e4, e5, e6, e7]⟩
    simp only [isLineTerminator, Bool.or_eq_false_iff, decide_eq_false_iff_not]
    omega
  · decide

/-- The number, comment and delimiter passes on a text made of a numeric token
between two texts without digit, `#` and `@`, the token having no word character next
to it: the token is wrapped once and nothing else changes. -/
theorem later_passes_token (A B ds fs : List Char) (hds : ds ≠ [])
    (hd : ∀ c ∈ ds, isDigit c = true) (hf : ∀ c ∈ fs, isDigit c = true)
    (hA : ∀ c ∈ A, isDigit c = false ∧ c ≠ '#' ∧ c ≠ '@')
    (hB : ∀ c ∈ B, isDigit c = false ∧ c ≠ '#' ∧ c ≠ '@')
    (hAw : isWordAt (lastOr none A) = false) (hBw : isWordAt B.head? = false) :
    highlightDelimiters (highlightComments (highlightNumbers (A ++ numberToken ds fs ++ B))) =
      A ++ span "number" (numberToken ds fs) ++ B := by
  have hn : highlightNumbers (A ++ numberToken ds fs ++ B) =
      A ++ span "number" (numberToken ds fs) ++ B := by
    unfold highlightNumbers
    rw [List.append_assoc, replaceAll_append_of_heads _ _ _ _ none
        (fun c hc p r => matchNumber_none_of_head p c r (hA c hc).1),
      replaceAll_match _ _ _ _ _ (numberToken_ne_nil ds fs hds)
        (matchNumber_token _ ds fs B hds hd hf hAw hBw (fun c hc => (hB c hc).1)),
      replaceAll_of_heads _ _ _ _ (fun c hc p r => matchNumber_none_of_head p c r (hB c hc).1)]
    simp
  have hall : ∀ c ∈ A ++ span "number" (numberToken ds fs) ++ B, c ≠ '#' ∧ c ≠ '@' := by
    intro c hc
    have hmark1 : ∀ x ∈ "<span class=\"number\">".data, x ≠ '#' ∧ x ≠ '@' := by decide
    have hmark2 : ∀ x ∈ "</span>".data, x ≠ '#' ∧ x ≠ '@' := by decide
    have hsp : span "number" (numberToken ds fs) =
        "<span class=\"number\">".data ++ (numberToken ds fs ++ "</span>".data) := by
      simp [span]
    rw [hsp] at hc
    rcases List.mem_append.mp hc with hc | hc
    · rcases List.mem_append.mp hc with hc | hc
      · exact ⟨(hA c hc).2.1, (hA c hc).2.2⟩
      · rcases List.mem_append.mp hc with hc | hc
        · exact hmark1 c hc
        · rcases List.mem_append.mp hc with hc | hc
          · have := digit_or_dot_plain (numberToken_chars ds fs hd hf c hc)
            exact ⟨this.2.1, this.2.2.1⟩
          · exact hmark2 c hc
    · exact ⟨(hB c hc).2.1, (hB c hc).2.2⟩
  have hc : highlightComments (A ++ span "number" (numberToken ds fs) ++ B) =
      A ++ span "number" (numberToken ds fs) ++ B :=
    replaceAll_of_heads _ _ _ none
      (fun c hc p r => matchComment_none_of_head p c r (hall c hc).1)
  have hdl : highlightDelimiters (A ++ span "number" (numberToken ds fs) ++ B) =
      A ++ span "number" (numberToken ds fs) ++ B :=
    replaceAll_of_heads _ _ _ none
      (fun c hc p r => matchDelimiter_none_of_head p c r (hall c hc).2 (hall c hc).1)
  rw [hn, hc, hdl]

theorem lastOr_entity : ∀ e ∈ entityTails, ∀ p, lastOr p ('&' :: e.data) = some ';' := by
  intro e he p
  simp only [entityTails, List.mem_cons, List.mem_singleton, List.not_mem_nil, or_false] at he
  rcases he with rfl | rfl | rfl | rfl <;> rfl

/-- Escaping keeps the class, word or not, of the last character of a text. -/
theorem isWordAt_lastOr_escape (l : List Char) (p q : Option Char)
    (h : isWordAt p = isWordAt q) :
    isWordAt (lastOr p (escapeHtmlChars l)) = isWordAt (lastOr q l) := by
  induction l generalizing p q with
  | nil => exact h
  | cons a t ih =>
    rw [escapeHtmlChars_cons, lastOr_append, lastOr_cons q a t]
    apply ih
    rcases entityOf_word_cases a with ha | ⟨hw, e, he, ha⟩
    · rw [ha]; rfl
    · rw [ha, lastOr_entity e he]
      simp only [isWordAt, hw]
      decide

/-- Escaping keeps the class, word or not, of the first character of a text. -/
theorem isWordAt_head_escape (l : List Char) :
    isWordAt (escapeHtmlChars l).head? = isWordAt l.head? := by
  cases l with
  | nil => rfl
  | cons a t =>
    rw [escapeHtmlChars_cons]
    rcases entityOf_word_cases a with ha | ⟨hw, e, _, ha⟩
    · rw [ha]; rfl
    · rw [ha]
      simp only [List.cons_append, List.head?_cons, isWordAt, hw]
      decide

/-! ## Claim on numeric literals -/

theorem lastOr_none (l : List Char) : lastOr none l = lastChar l := by
  cases l with
  | nil => rfl
  | cons a t => exact lastOr_eq_lastChar none a t

theorem lastOr_of_lastChar (p : Option Char) (l : List Char) (hp : isWordAt p = false)
    (hl : isWordAt (lastChar l) = false) : isWordAt (lastOr p l) = false := by
  cases l with
  | nil => exact hp
  | cons a t => rw [lastOr_eq_lastChar]; exact hl

theorem escapeHtmlChars_token (ds fs : List Char) (hd : ∀ c ∈ ds, isDigit c = true)
    (hf : ∀ c ∈ fs, isDigit c = true) :
    escapeHtmlChars (numberToken ds fs) = numberToken ds fs := by
  have h := numberToken_chars ds fs hd hf
  rw [escapeHtmlChars_eq_flatMap]
  generalize numberToken ds fs = tok at h
  induction tok with
  | nil => rfl
  | cons a t ih =>
    rw [List.flatMap_cons, ih (fun c hc => h c (List.mem_cons_of_mem a hc)),
      (digit_or_dot_plain (h a (List.mem_cons_self a t))).2.2.2.2.2]
    rfl

/-- The number pass on plain text: a numeric token with no word character next to it,
between two texts without quote, digit, `#` and `@`, is wrapped once. -/
theorem highlightRiftChars_number_plain (s1 s2 ds fs : List Char) (hds : ds ≠ [])
    (hd : ∀ c ∈ ds, isDigit c = true) (hf : ∀ c ∈ fs, isDigit c = true)
    (h1 : ∀ c ∈ s1, isQuote c = false ∧ isDigit c = false ∧ c ≠ '#' ∧ c ≠ '@')
    (h2 : ∀ c ∈ s2, isQuote c = false ∧ isDigit c = false ∧ c ≠ '#' ∧ c ≠ '@')
    (hw1 : isWordAt (lastChar s1) = false) (hw2 : isWordAt s2.head? = false)
    (hkw : ∀ K ∈ keywords, ∀ a b, s1 ++ numberToken ds fs ++ s2 = a ++ K.data ++ b →
      isWordAt (lastChar a) = true ∨ isWordAt b.head? = true) :
    highlightRiftChars (s1 ++ numberToken ds fs ++ s2) =
      escapeHtmlChars s1 ++ span "number" (numberToken ds fs) ++ escapeHtmlChars s2 := by
  have hesc : escapeHtmlChars (s1 ++ numberToken ds fs ++ s2) =
      escapeHtmlChars s1 ++ numberToken ds fs ++ escapeHtmlChars s2 := by
    rw [escapeHtmlChars_append, escapeHtmlChars_append, escapeHtmlChars_token ds fs hd hf]
  have hk : highlightKeywords (escapeHtmlChars (s1 ++ numberToken ds fs ++ s2)) =
      escapeHtmlChars (s1 ++ numberToken ds fs ++ s2) :=
    highlightKeywords_escape _ (fun K hK => matchesIn_of_flanked K hK _ (hkw K hK))
  have hE : ∀ s : List Char,
      (∀ c ∈ s, isQuote c = false ∧ isDigit c = false ∧ c ≠ '#' ∧ c ≠ '@') →
      ∀ c ∈ escapeHtmlChars s, isQuote c = false ∧ isDigit c = false ∧ c ≠ '#' ∧ c ≠ '@' := by
    intro s hs
    apply forall_mem_escapeHtmlChars hs
    intro x hx
    obtain ⟨e1, e2, e3, e4, _⟩ := entityChars_plain x hx
    exact ⟨e1, e2, e3, e4⟩
  have hs : highlightStrings (escapeHtmlChars s1 ++ numberToken ds fs ++ escapeHtmlChars s2) =
      escapeHtmlChars s1 ++ numberToken ds fs ++ escapeHtmlChars s2 := by
    apply replaceAll_of_heads
    intro c hc p r
    apply matchString_none_of_head
    rcases List.mem_append.mp hc with hc | hc
    · rcases List.mem_append.mp hc with hc | hc
      · exact (hE s1 h1 c hc).1
      · exact (digit_or_dot_plain (numberToken_chars ds fs hd hf c hc)).1
    · exact (hE s2 h2 c hc).1
  unfold highlightRiftChars
  rw [hk, hesc, hs]
  apply later_passes_token _ _ ds fs hds hd hf
  · exact fun c hc => (hE s1 h1 c hc).2
  · exact fun c hc => (hE s2 h2 c hc).2
  · rw [isWordAt_lastOr_escape s1 none none rfl, lastOr_none]
    exact hw1
  · rw [isWordAt_head_escape]
    exact hw2

/-- The number pass inside a string literal: a numeric token with no word character
next to it, in a literal whose text holds nothing else that a pass matches, is
wrapped as number inside the string annotation. -/
theorem highlightRiftChars_number_in_string (q : Char) (s1 s2 ds fs : List Char)
    (hq : isQuote q = true) (hds : ds ≠ [])
    (hd : ∀ c ∈ ds, isDigit c = true) (hf : ∀ c ∈ fs, isDigit c = true)
    (h1 : ∀ c ∈ s1, isQuote c = false ∧ c ≠ backslash ∧ isLineTerminator c = false ∧
      isDigit c = false ∧ c ≠ '#' ∧ c ≠ '@')
    (h2 : ∀ c ∈ s2, isQuote c = false ∧ c ≠ backslash ∧ isLineTerminator c = false ∧
      isDigit c = false ∧ c ≠ '#' ∧ c ≠ '@')
    (hw1 : isWordAt (lastChar s1) = false) (hw2 : isWordAt s2.head? = false)
    (hkw : ∀ K ∈ keywords, ∀ a b, q :: s1 ++ numberToken ds fs ++ s2 ++ [q] = a ++ K.data ++ b →
      isWordAt (lastChar a) = true ∨ isWordAt b.head? = true) :
    highlightRiftChars (q :: s1 ++ numberToken ds fs ++ s2 ++ [q]) =
      span "string" (q :: escapeHtmlChars s1 ++ span "number" (numberToken ds fs) ++
        escapeHtmlChars s2 ++ [q]) := by
  obtain ⟨hq1, hq2, hq3, _, hq5⟩ := quote_plain hq
  have hesc : escapeHtmlChars (q :: s1 ++ numberToken ds fs ++ s2 ++ [q]) =
      [] ++ q :: (escapeHtmlChars s1 ++ numberToken ds fs ++ escapeHtmlChars s2) ++ q :: [] := by
    have hsh : q :: s1 ++ numberToken ds fs ++ s2 ++ [q] =
        [q] ++ (s1 ++ (numberToken ds fs ++ (s2 ++ [q]))) := by simp
    rw [hsh]
    simp only [escapeHtmlChars_append, escapeHtmlChars_single, entityOf_quote hq,
      escapeHtmlChars_token ds fs hd hf]
    simp
  have hk : highlightKeywords (escapeHtmlChars (q :: s1 ++ numberToken ds fs ++ s2 ++ [q])) =
      escapeHtmlChars (q :: s1 ++ numberToken ds fs ++ s2 ++ [q]) :=
    highlightKeywords_escape _ (fun K hK => matchesIn_of_flanked K hK _ (hkw K hK))
  have hE : ∀ s : List Char,
      (∀ c ∈ s, isQuote c = false ∧ c ≠ backslash ∧ isLineTerminator c = false ∧
        isDigit c = false ∧ c ≠ '#' ∧ c ≠ '@') →
      ∀ c ∈ escapeHtmlChars s, isQuote c = false ∧ c ≠ backslash ∧
        isLineTerminator c = false ∧ isDigit c = false ∧ c ≠ '#' ∧ c ≠ '@' := by
    intro s hs
    apply forall_mem_escapeHtmlChars hs
    intro x hx
    obtain ⟨e1, e2, e3, e4, _, e6, e7⟩ := entityChars_plain x hx
    exact ⟨e1, e6, e7, e2, e3, e4⟩
  have hne : ∀ c : Char, isQuote c = false → c ≠ q := by
    intro c hc hcq
    rw [hcq, hq] at hc
    exact absurd hc (by decide)
  have hbody : ∀ c ∈ escapeHtmlChars s1 ++ numberToken ds fs ++ escapeHtmlChars s2,
      c ≠ q ∧ c ≠ backslash ∧ isLineTerminator c = false := by
    intro c hc
    rcases List.mem_append.mp hc with hc | hc
    · rcases List.mem_append.mp hc with hc | hc
      · obtain ⟨e1, e2, e3, _⟩ := hE s1 h1 c hc
        exact ⟨hne c e1, e2, e3⟩
      · obtain ⟨e1, _, _, e4, e5, _⟩ := digit_or_dot_plain (numberToken_chars ds fs hd hf c hc)
        exact ⟨hne c e1, e4, e5⟩
    · obtain ⟨e1, e2, e3, _⟩ := hE s2 h2 c hc
      exact ⟨hne c e1, e2, e3⟩
  have hs := highlightStrings_literal []
    (escapeHtmlChars s1 ++ numberToken ds fs ++ escapeHtmlChars s2) [] q hq
    (fun c hc => absurd hc (List.not_mem_nil c)) hbody
  have hnil : highlightStrings [] = [] := rfl
  have hshape : [] ++ span "string"
        (q :: (escapeHtmlChars s1 ++ numberToken ds fs ++ escapeHtmlChars s2) ++ [q]) ++ [] =
      ("<span class=\"string\">".data ++ q :: escapeHtmlChars s1) ++ numberToken ds fs ++
        (escapeHtmlChars s2 ++ q :: "</span>".data) := by
    simp [span]
  have hopen : ∀ x ∈ "<span class=\"string\">".data,
      isDigit x = false ∧ x ≠ '#' ∧ x ≠ '@' := by decide
  have hclose : ∀ x ∈ "</span>".data, isDigit x = false ∧ x ≠ '#' ∧ x ≠ '@' := by decide
  unfold highlightRiftChars
  rw [hk, hesc, hs, hnil, hshape, later_passes_token _ _ ds fs hds hd hf]
  · simp [span]
  · intro c hc
    rcases List.mem_append.mp hc with hc | hc
    · exact hopen c hc
    · rcases List.mem_cons.mp hc with rfl | hc
      · exact ⟨hq1, hq2, hq3⟩
      · exact (hE s1 h1 c hc).2.2.2
  · intro c hc
    rcases List.mem_append.mp hc with hc | hc
    · exact (hE s2 h2 c hc).2.2.2
    · rcases List.mem_cons.mp hc with rfl | hc
      · exact ⟨hq1, hq2, hq3⟩
      · exact hclose c hc
  · rw [lastOr_append, lastOr_cons, isWordAt_lastOr_escape s1 (some q) (some q) rfl]
    exact lastOr_of_lastChar (some q) s1 hq5 hw1
  · cases s2 with
    | nil => exact hq5
    | cons a t =>
      have hhead : (escapeHtmlChars (a :: t) ++ q :: "</span>".data).head? =
          (escapeHtmlChars (a :: t)).head? := by
        rw [escapeHtmlChars_cons]
        rcases entityOf_word_cases a with ha | ⟨_, e, _, ha⟩ <;> rw [ha] <;> rfl
      rw [hhead, isWordAt_head_escape]
      exact hw2

/-- C13, as stated, fails: the digit run `123` inside the string literal `"abc 123"`,
which the string pass has wrapped, is wrapped as number. -/
theorem highlightRift_number_inside_string :
    highlightRift "\"abc 123\"" =
      "<span class=\"string\">\"abc <span class=\"number\">123</span>\"</span>" ∧
    "<span class=\"number\">123</span>".data <:+: (highlightRift "\"abc 123\"").data := by
  decide

/-- C13, amended: the number pass wraps every whole-word integer or decimal token,
inside a string annotation as well as outside. A token with no word character next
to it in a string literal whose text holds nothing else that a pass matches is
wrapped as number inside the string annotation (the `123` of `"abc 123"`); such a
token in plain text is wrapped once (the `1` of `x = 1`, the `3.14` of `x = 3.14`). -/
theorem highlightRift_number_tokens :
    highlightRift "\"abc 123\"" =
      "<span class=\"string\">\"abc <span class=\"number\">123</span>\"</span>" ∧
    highlightRift "x = 1" = "x = <span class=\"number\">1</span>" ∧
    highlightRift "x = 3.14" = "x = <span class=\"number\">3.14</span>" ∧
    (∀ (q : Char) (s1 s2 ds fs : List Char), isQuote q = true → ds ≠ [] →
      (∀ c ∈ ds, isDigit c = true) → (∀ c ∈ fs, isDigit c = true) →
      (∀ c ∈ s1, isQuote c = false ∧ c ≠ backslash ∧ isLineTerminator c = false ∧
        isDigit c = false ∧ c ≠ '#' ∧ c ≠ '@') →
      (∀ c ∈ s2, isQuote c = false ∧ c ≠ backslash ∧ isLineTerminator c = false ∧
        isDigit c = false ∧ c ≠ '#' ∧ c ≠ '@') →
      isWordAt (lastChar s1) = false → isWordAt s2.head? = false →
      (∀ K ∈ keywords, ∀ a b, q :: s1 ++ numberToken ds fs ++ s2 ++ [q] = a ++ K.data ++ b →
        isWordAt (lastChar a) = true ∨ isWordAt b.head? = true) →
      highlightRiftChars (q :: s1 ++ numberToken ds fs ++ s2 ++ [q]) =
        span "string" (q :: escapeHtmlChars s1 ++ span "number" (numberToken ds fs) ++
          escapeHtmlChars s2 ++ [q])) ∧
    (∀ (s1 s2 ds fs : List Char), ds ≠ [] →
      (∀ c ∈ ds, isDigit c = true) → (∀ c ∈ fs, isDigit c = true) →
      (∀ c ∈ s1, isQuote c = false ∧ isDigit c = false ∧ c ≠ '#' ∧ c ≠ '@') →
      (∀ c ∈ s2, isQuote c = false ∧ isDigit c = false ∧ c ≠ '#' ∧ c ≠ '@') →
      isWordAt (lastChar s1) = false → isWordAt s2.head? = false →
      (∀ K ∈ keywords, ∀ a b, s1 ++ numberToken ds fs ++ s2 = a ++ K.data ++ b →
        isWordAt (lastChar a) = true ∨ isWordAt b.head? = true) →
      highlightRiftChars (s1 ++ numberToken ds fs ++ s2) =
        escapeHtmlChars s1 ++ span "number" (numberToken ds fs) ++ escapeHtmlChars s2) :=
  ⟨by decide, by decide, by decide,
   fun q s1 s2 ds fs hq hds hd hf h1 h2 hw1 hw2 hkw =>
     highlightRiftChars_number_in_string q s1 s2 ds fs hq hds hd hf h1 h2 hw1 hw2 hkw,
   fun s1 s2 ds fs hds hd hf h1 h2 hw1 hw2 hkw =>
     highlightRiftChars_number_plain s1 s2 ds fs hds hd hf h1 h2 hw1 hw2 hkw⟩

/-- C13 amended, at concrete sources: the decimal `2.5` in the literal `'a 2.5 b'` is
wrapped inside the string annotation, and so is the integer `42` in the plain text
`n = 42;`. -/
theorem highlightRift_number_tokens_witness :
    highlightRiftChars "'a 2.5 b'".data =
      "<span class=\"string\">'a <span class=\"number\">2.5</span> b'</span>".data ∧
    highlightRiftChars "n = 42;".data = "n = <span class=\"number\">42</span>;".data :=
  ⟨(highlightRift_number_tokens.2.2.2.1 squote "a ".data " b".data "2".data "5".data
      (by decide) (by decide) (by decide) (by decide) (by decide) (by decide) (by decide)
      (by decide) (flanked_of_matchesIn _ (by decide))).trans (by decide),
   (highlightRift_number_tokens.2.2.2.2 "n = ".data ";".data "42".data [] (by decide)
      (by decide) (by decide) (by decide) (by decide) (by decide) (by decide)
      (flanked_of_matchesIn _ (by decide))).trans (by decide)⟩

/-! ## Claim on unterminated literals -/

/-- The body of a literal is not read to an end in a text without the quote. -/
theorem stringBody_none (q : Char) :
    ∀ (n : Nat) (l : List Char), l.length ≤ n → q ∉ l → stringBody q l = none := by
  intro n
  induction n with
  | zero =>
    intro l hl _
    have : l = [] := List.length_eq_zero.mp (Nat.le_zero.mp hl)
    subst this
    rw [stringBody.eq_def]
  | succ n ih =>
    intro l hl hq
    cases l with
    | nil => rw [stringBody.eq_def]
    | cons c rest =>
      have hc : c ≠ q := fun h => hq (h ▸ List.mem_cons_self c rest)
      have hrest : q ∉ rest := fun h => hq (List.mem_cons_of_mem c h)
      have hlen : rest.length ≤ n := by simpa using hl
      rw [stringBody.eq_def]
      simp only [if_neg hc]
      split
      · cases rest with
        | nil => rfl
        | cons d rest2 =>
          have h2 : q ∉ rest2 := fun h => hrest (List.mem_cons_of_mem d h)
          have hlen2 : rest2.length ≤ n := by
            simp only [List.length_cons] at hlen
            omega
          simp only [ih rest2 hlen2 h2]
          split <;> rfl
      · split
        · rfl
        · rw [ih rest hlen hrest]
          rfl

/-- C14, on the code: in `"abc let` the opening quote has no closing quote in the
source, but the keyword pass writes `<span class="keyword">` before the string pass
runs, and the string pass closes the literal at the quote of that markup: a string
annotation starts at the quote. Without keyword in the source the quote is left
alone: the pattern does not match at a quote with no later quote of its kind, and
the string pass then copies the quote and goes on after it. -/
theorem highlightRift_unterminated_quote :
    highlightRift "\"abc let" =
      "<span class=\"string\">\"abc <span class=\"</span>keyword\">let</span>" ∧
    "<span class=\"string\">\"abc ".data <+: (highlightRift "\"abc let").data ∧
    highlightRift "\"abc" = "\"abc" ∧
    (∀ (q : Char) (rest : List Char) (prev : Option Char), q ∉ rest →
      matchString prev (q :: rest) = none) ∧
    (∀ (q : Char) (pre rest : List Char), isQuote q = true → q ∉ rest →
      (∀ c ∈ pre, isQuote c = false) →
      (∀ K ∈ keywords, ∀ a b, pre ++ q :: rest = a ++ K.data ++ b →
        isWordAt (lastChar a) = true ∨ isWordAt b.head? = true) →
      highlightStrings (highlightKeywords (escapeHtmlChars (pre ++ q :: rest))) =
        escapeHtmlChars pre ++ q :: highlightStrings (escapeHtmlChars rest)) := by
  have hnone : ∀ (q : Char) (rest : List Char) (prev : Option Char), q ∉ rest →
      matchString prev (q :: rest) = none := by
    intro q rest prev hq
    simp only [matchString, stringBody_none q rest.length rest (Nat.le_refl _) hq]
    split <;> rfl
  refine ⟨by decide, by decide, by decide, hnone, ?_⟩
  intro q pre rest hq hrest hpre hkw
  have hk : highlightKeywords (escapeHtmlChars (pre ++ q :: rest)) =
      escapeHtmlChars (pre ++ q :: rest) :=
    highlightKeywords_escape _ (fun K hK => matchesIn_of_flanked K hK _ (hkw K hK))
  have hesc : escapeHtmlChars (pre ++ q :: rest) =
      escapeHtmlChars pre ++ q :: escapeHtmlChars rest := by
    rw [escapeHtmlChars_append, escapeHtmlChars_cons, entityOf_quote hq]
    rfl
  have hEpre : ∀ c ∈ escapeHtmlChars pre, isQuote c = false :=
    forall_mem_escapeHtmlChars hpre (fun x hx => (entityChars_plain x hx).1)
  have hErest : q ∉ escapeHtmlChars rest := by
    intro h
    rcases mem_escapeHtmlChars h with h | h
    · exact hrest h
    · have := (entityChars_plain q h).1
      rw [hq] at this
      exact absurd this (by decide)
  rw [hk, hesc]
  unfold highlightStrings
  rw [replaceAll_append_of_heads _ _ _ _ none
      (fun c hc p r => matchString_none_of_head p c r (hEpre c hc)),
    replaceAll_none _ _ _ _ _ (hnone q _ _ hErest),
    replaceAll_prev_irrelevant matchString _ matchString_prev _ 0 _ none]

end Rift
